import Mathlib

/-!
Verification of the `filterupdater` repository against its specification.

The development shallowly embeds the Rust sources:
  * `src/aggregate.rs` — prefix aggregation (`Entry`, `can_level_up_with`,
    `touching`, `level_up`, `aggregate`, `Display for Entry`);
  * `src/irr.rs` — `parse_autnum`, `parse_prefix`, `read_reply`,
    `resolve_as_sets`, `resolve_autnums`;
  * `src/filterclass.rs` — `Query::try_from`, `parse_name_component`.

Machine integers are modelled as `Nat` with explicit checked arithmetic:
Rust (debug) panics on overflow/underflow and on out-of-range shifts, so
every such operation runs in the `Res` monad whose `panic` constructor
models an arithmetic or indexing panic.  `fuel` is used only to bound the
`while did_change` loop of `level_up`; the Rust loop terminates because
every changed pass strictly decreases the number of live entries, and the
fuel supplied (`length + 1`) dominates that bound.
-/

namespace Fup

/-- Outcome of running embedded Rust code: a value, a panic (arithmetic
overflow / slice index / assertion in debug mode), an I/O error, a protocol
error, an `InvalidData` error, or exhaustion of loop fuel. -/
inductive Res (α : Type) where
  | panic
  | fuel
  | ioErr
  | protoErr
  | invalidData
  | ok (a : α)
deriving DecidableEq, Repr

namespace Res

def bind : Res α → (α → Res β) → Res β
  | .panic, _ => .panic
  | .fuel, _ => .fuel
  | .ioErr, _ => .ioErr
  | .protoErr, _ => .protoErr
  | .invalidData, _ => .invalidData
  | .ok a, f => f a

instance : Monad Res where
  pure := Res.ok
  bind := Res.bind

end Res

/-- Checked unsigned subtraction (`a - b` on `uN`): Rust debug builds panic
on underflow. -/
def chkSub (a b : Nat) : Res Nat := if b ≤ a then .ok (a - b) else .panic

/-- Checked right shift on a `w`-bit unsigned integer: Rust debug builds
panic when the shift amount reaches the bit width. -/
def chkShr (w a s : Nat) : Res Nat := if s < w then .ok (a >>> s) else .panic

/-- Checked left shift on a `w`-bit unsigned integer (value bits shifted out
are discarded; a shift amount `≥ w` panics). -/
def chkShl (w a s : Nat) : Res Nat := if s < w then .ok ((a <<< s) % 2 ^ w) else .panic

/-- Checked addition on a `w`-bit unsigned integer: Rust debug builds panic
on overflow. -/
def chkAdd (w a b : Nat) : Res Nat := if a + b < 2 ^ w then .ok (a + b) else .panic

/-- `std::net::IpAddr`: a 32-bit IPv4 address or a 128-bit IPv6 address.
The numeric value is the big-endian integer value of the address. -/
inductive IpAddr where
  | v4 (a : Nat)
  | v6 (a : Nat)
deriving DecidableEq, Repr

/-- Family tag, ordered as the Rust `IpAddr` derive orders the variants
(`V4 < V6`). -/
def IpAddr.fam : IpAddr → Nat
  | .v4 _ => 0
  | .v6 _ => 1

/-- Integer value of the address. -/
def IpAddr.val : IpAddr → Nat
  | .v4 a => a
  | .v6 a => a

/-- Bit width of the address family. -/
def IpAddr.width : IpAddr → Nat
  | .v4 _ => 32
  | .v6 _ => 128

/-- `aggregate.rs`: `struct Entry { prefix, mask, min, max, valid }`.
`mask`, `min`, `max` are `u8` in the source; `prefix` is renamed `pfx`
because `prefix` is a Lean keyword. -/
structure Entry where
  pfx : IpAddr
  mask : Nat
  min : Nat
  max : Nat
  valid : Bool
deriving DecidableEq, Repr

/-- A `Prefix` as in `lib.rs`: `(IpAddr, u8)`. -/
abbrev Prefix := IpAddr × Nat

/-- `Entry::from_prefix`. -/
def fromPrefix (p : Prefix) : Entry :=
  { pfx := p.1, mask := p.2, min := p.2, max := p.2, valid := true }

/-- Sort key realising the derived `Ord` on `Entry`: lexicographic in
declaration order `(prefix, mask, min, max, valid)`, with `IpAddr` ordered
by variant then value and `bool` ordered `false < true`. -/
def Entry.sortKey (e : Entry) :
    Lex (Nat × Lex (Nat × Lex (Nat × Lex (Nat × Lex (Nat × Nat))))) :=
  toLex (e.pfx.fam, toLex (e.pfx.val, toLex (e.mask, toLex (e.min,
    toLex (e.max, cond e.valid 1 0)))))

/-- The total order used by `this.sort()` in `level_up`. -/
def entryRel (a b : Entry) : Prop := a.sortKey ≤ b.sortKey

instance : DecidableRel entryRel := fun a b =>
  inferInstanceAs (Decidable (a.sortKey ≤ b.sortKey))

instance : IsTotal Entry entryRel := ⟨fun a b => le_total a.sortKey b.sortKey⟩

instance : IsTrans Entry entryRel := ⟨fun _ _ _ h1 h2 => le_trans h1 h2⟩

/-- Model of `Vec::sort` (a stable comparison sort).  `entryRel` is a total
order that is antisymmetric on the embedded values, so any comparison sort
returns the same list; we use insertion sort, which the kernel can
evaluate. -/
def sortEntries (l : List Entry) : List Entry := l.insertionSort entryRel

/-- `Entry::can_level_up_with`.  The sibling-bit test
`(a ^ b) == (1 << (w-1)) >> (mask - 1)` is u32/u128 arithmetic: `mask - 1`
underflows for `mask = 0`, and the right shift panics when `mask - 1`
reaches the width. -/
def canLevelUpWith (a b : Entry) : Res Bool := do
  let overlaps ← (match a.pfx, b.pfx with
    | .v4 x, .v4 y => do
        let m1 ← chkSub a.mask 1
        let s ← chkShr 32 (2 ^ 31) m1
        pure (decide (x ^^^ y = s))
    | .v6 x, .v6 y => do
        let m1 ← chkSub a.mask 1
        let s ← chkShr 128 (2 ^ 127) m1
        pure (decide (x ^^^ y = s))
    | _, _ => pure false)
  pure (overlaps && decide (a.min = b.min) && decide (a.max = b.max))

/-- `touching` from `aggregate.rs`.  Note the source computes
`wildcard_bits = 32 - u32::from(this.mask)` before matching on the
families, so the u32 subtraction runs (and can underflow) even for IPv6
and mixed-family pairs. -/
def touching (a b : Entry) : Res Bool := do
  let wildcard ← chkSub 32 a.mask
  match a.pfx, b.pfx with
  | .v4 ua, .v4 ub => do
      let p ← chkShl 32 1 wildcard
      let np ← chkAdd 32 ua p
      pure (decide (ub ≤ np))
  | .v6 ua, .v6 ub => do
      let p ← chkShl 128 1 wildcard
      let np ← chkAdd 128 ua p
      pure (decide (ub ≤ np))
  | _, _ => pure false

/-- The Rule-2 guard in `level_up`:
`(a.prefix, a.mask, a.min + 1) == (b.prefix, b.mask, b.min)`; the u8
addition `a.min + 1` is evaluated when the tuple is built. -/
def rule2Cond (a b : Entry) : Res Bool := do
  let m1 ← chkAdd 8 a.min 1
  pure (decide (a.pfx = b.pfx) && decide (a.mask = b.mask) && decide (m1 = b.min))

/-- The inner `for b in this.iter_mut().filter(|e| e.valid)` loop of
`level_up`, scanning candidates `b` for a fixed `a`.  Returns the final
state of `a`, the updated tail, the entries pushed onto `next`, and
whether any merge fired.  Rule 1 clones `a` (including its current `valid`
flag), decrements the clone's mask, invalidates `a` and `b` and keeps
scanning; Rule 2 widens `a`'s window and invalidates `b`; otherwise a
non-touching `b` breaks the scan. -/
def scanB (a : Entry) : List Entry → Res (Entry × List Entry × List Entry × Bool)
  | [] => pure (a, [], [], false)
  | b :: bs => do
    if b.valid then
      let clu ← canLevelUpWith a b
      if clu then do
        let m ← chkSub a.mask 1
        let merged : Entry := { a with mask := m }
        let a1 : Entry := { a with valid := false }
        let b1 : Entry := { b with valid := false }
        let (a2, bs2, nx, _) ← scanB a1 bs
        pure (a2, b1 :: bs2, merged :: nx, true)
      else do
        let r2 ← rule2Cond a b
        if r2 then do
          let a1 : Entry := { a with min := Nat.min a.min b.min, max := Nat.max a.max b.max }
          let b1 : Entry := { b with valid := false }
          let (a2, bs2, nx, _) ← scanB a1 bs
          pure (a2, b1 :: bs2, nx, true)
        else do
          let t ← touching a b
          if t then do
            let (a2, bs2, nx, ch) ← scanB a bs
            pure (a2, b :: bs2, nx, ch)
          else
            pure (a, b :: bs, [], false)
    else do
      let (a2, bs2, nx, ch) ← scanB a bs
      pure (a2, b :: bs2, nx, ch)

/-- The outer `while this.len() >= 2 { let (a, rest) = split_first_mut … }`
loop of a single `level_up` pass: each position serves as `a` once (skipped
when invalid); the final singleton is never an `a`.  The `Nat` argument is
structural fuel: `scanB` preserves the tail's length, so calling with fuel
equal to the list length (as `scanA` does) never exhausts it. -/
def scanAF : Nat → List Entry → Res (List Entry × List Entry × Bool)
  | _, [] => pure ([], [], false)
  | _, [x] => pure ([x], [], false)
  | 0, _ => .fuel
  | f + 1, a :: b :: rest =>
    if a.valid then do
      let (a2, rest2, nx, ch) ← scanB a (b :: rest)
      let (rest3, nx2, ch2) ← scanAF f rest2
      pure (a2 :: rest3, nx ++ nx2, ch || ch2)
    else do
      let (rest2, nx, ch) ← scanAF f (b :: rest)
      pure (a :: rest2, nx, ch)

/-- The pass scan, at its exact fuel. -/
def scanA (l : List Entry) : Res (List Entry × List Entry × Bool) :=
  scanAF l.length l

/-- One pass of the `while did_change` loop of `level_up`: sort, then scan. -/
def onePass (ths : List Entry) : Res (List Entry × List Entry × Bool) :=
  scanA (sortEntries ths)

/-- The `while did_change` loop of `level_up`, with fuel bounding the number
of passes.  Entries produced by Rule 1 are appended to `next` in push
order. -/
def levelUpLoop : Nat → List Entry → List Entry → Res (List Entry × List Entry)
  | 0, _, _ => .fuel
  | f + 1, ths, nxt => do
    let (ths2, nx, ch) ← onePass ths
    let nxt2 := nxt ++ nx
    if ch then levelUpLoop f ths2 nxt2 else pure (ths2, nxt2)

/-- `level_up(this, next)`.  A changed pass strictly decreases the number of
live entries of `this`, so `length + 1` passes always suffice. -/
def levelUp (ths nxt : List Entry) : Res (List Entry × List Entry) :=
  levelUpLoop (ths.length + 1) ths nxt

/-- `levels[prefix.mask as usize].push(prefix.clone())`: indexing panics when
`mask` exceeds 128 (the `levels` vector has 129 slots). -/
def pushLevel (levels : List (List Entry)) (e : Entry) : Res (List (List Entry)) :=
  if e.mask < levels.length then
    .ok (levels.set e.mask (levels.getD e.mask [] ++ [e]))
  else .panic

/-- Bucket the lifted entries by mask into levels `0..=128`. -/
def buckets (es : List Entry) : Res (List (List Entry)) :=
  es.foldlM pushLevel (List.replicate 129 [])

/-- `for cur in (1..=128).rev()`: process level `cur` into level `cur - 1`.
`processLevels c` handles levels `c, c-1, …, 1`. -/
def processLevels : Nat → List (List Entry) → Res (List (List Entry))
  | 0, levels => .ok levels
  | c + 1, levels => do
    let ths := levels.getD (c + 1) []
    let nxt := levels.getD c []
    let (t, n) ← levelUp ths nxt
    processLevels c ((levels.set (c + 1) t).set c n)

/-- The final collection loop of `aggregate`: walk levels from 128 down to 0
and keep the valid entries. -/
def collectOut (levels : List (List Entry)) : List Entry :=
  (levels.reverse.map (fun es => es.filter (fun e => e.valid))).flatten

/-- The body of `aggregate` after lifting prefixes to entries; this is also
the function that re-runs aggregation on already-aggregated range entries. -/
def aggregateEntries (es : List Entry) : Res (List Entry) := do
  let levels ← buckets es
  let levels2 ← processLevels 128 levels
  pure (collectOut levels2)

/-- `aggregate(prefixes)` from `aggregate.rs`. -/
def aggregate (ps : List Prefix) : Res (List Entry) :=
  aggregateEntries (ps.map fromPrefix)

/-- Decimal rendering of a `u8`/`u32` value, as Rust `Display` renders it. -/
def natStr (n : Nat) : String := toString n

/-- Dotted-quad rendering of an IPv4 address value (Rust
`Display for Ipv4Addr`). -/
def v4Str (a : Nat) : String :=
  natStr (a / 2 ^ 24 % 256) ++ "." ++ natStr (a / 2 ^ 16 % 256) ++ "." ++
    natStr (a / 2 ^ 8 % 256) ++ "." ++ natStr (a % 256)

/-- Lowercase hex digit. -/
def hexDigit (n : Nat) : String :=
  String.singleton (if n < 10 then Char.ofNat (48 + n) else Char.ofNat (87 + n))

/-- Lowercase hex rendering of a 16-bit group without leading zeros (Rust
`{:x}` on `u16`). -/
def hexStr (n : Nat) : String :=
  if n < 16 then hexDigit n
  else if n < 256 then hexDigit (n / 16) ++ hexDigit (n % 16)
  else if n < 4096 then hexDigit (n / 256) ++ hexDigit (n / 16 % 16) ++ hexDigit (n % 16)
  else hexDigit (n / 4096) ++ hexDigit (n / 256 % 16) ++ hexDigit (n / 16 % 16) ++ hexDigit (n % 16)

/-- The eight 16-bit groups of an IPv6 address value, most significant
first. -/
def v6Groups (a : Nat) : List Nat :=
  [a / 2 ^ 112 % 2 ^ 16, a / 2 ^ 96 % 2 ^ 16, a / 2 ^ 80 % 2 ^ 16, a / 2 ^ 64 % 2 ^ 16,
   a / 2 ^ 48 % 2 ^ 16, a / 2 ^ 32 % 2 ^ 16, a / 2 ^ 16 % 2 ^ 16, a % 2 ^ 16]

/-- Longest run of zero groups: returns `(start, len)` of the leftmost
longest run (Rust `Display for Ipv6Addr` keeps a run only when its length
exceeds 1). -/
def longestZeroRun (gs : List Nat) : Nat × Nat := Id.run do
  let mut best : Nat × Nat := (0, 0)
  let mut cur : Nat × Nat := (0, 0)
  let mut i := 0
  for g in gs do
    if g = 0 then
      cur := if cur.2 = 0 then (i, 1) else (cur.1, cur.2 + 1)
      if cur.2 > best.2 then best := cur
    else
      cur := (0, 0)
    i := i + 1
  return best

/-- Join hex groups with `:`. -/
def joinGroups (gs : List Nat) : String :=
  String.intercalate ":" (gs.map hexStr)

/-- Rust `Display for Ipv6Addr`: the IPv4-mapped form `::ffff:a.b.c.d`,
otherwise zero-run compression when the longest zero run has length > 1,
otherwise all eight groups. -/
def v6Str (a : Nat) : String :=
  let gs := v6Groups a
  if a < 2 ^ 48 ∧ a / 2 ^ 32 = 0xffff then
    "::ffff:" ++ v4Str (a % 2 ^ 32)
  else
    let (s, l) := longestZeroRun gs
    if l > 1 then joinGroups (gs.take s) ++ "::" ++ joinGroups (gs.drop (s + l))
    else joinGroups gs

/-- Rust `Display for IpAddr`. -/
def ipStr : IpAddr → String
  | .v4 a => v4Str a
  | .v6 a => v6Str a

/-- `impl Display for Entry` in `aggregate.rs`: `prefix/mask`, with
` ge min` only when `min != mask` and ` le max` only when `max != mask`. -/
def entryStr (e : Entry) : String :=
  if e.valid then
    ipStr e.pfx ++ "/" ++ natStr e.mask ++
      (if e.mask ≠ e.min then " ge " ++ natStr e.min else "") ++
      (if e.mask ≠ e.max then " le " ++ natStr e.max else "")
  else "INVALID"

/-- The accepted-prefix test of the specification: a query prefix
`q = (addr, len)` is accepted by an entry when the families match, `len`
lies in the entry's `[min, max]` window, and `q` is contained in the
entry's network (`len ≥ mask` and equal network bits). -/
def acceptsB (e : Entry) (q : Prefix) : Bool :=
  decide (e.pfx.fam = q.1.fam) && decide (e.mask ≤ q.2) && decide (e.min ≤ q.2) &&
  decide (q.2 ≤ e.max) &&
  decide (q.1.val >>> (e.pfx.width - e.mask) = e.pfx.val >>> (e.pfx.width - e.mask))

/-- A query is covered by a list when some live entry accepts it. -/
def okU (l : List Entry) (q : Prefix) : Prop :=
  ∃ e, e ∈ l ∧ e.valid = true ∧ acceptsB e q = true

/-- A query is covered by a collection of levels. -/
def okLevels (levels : List (List Entry)) (q : Prefix) : Prop :=
  ∃ i, okU (levels.getD i []) q

/-- Window invariant: `mask ≤ min ≤ max` for a working entry. -/
def WInv (e : Entry) : Prop := e.mask ≤ e.min ∧ e.min ≤ e.max

/-- The prefix-field order induced by the entry sort order. -/
def pfxLe (x y : IpAddr) : Prop :=
  x.fam < y.fam ∨ (x.fam = y.fam ∧ x.val ≤ y.val)

/-- Per-level invariant of the `levels` vector: every entry sits in the
bucket of its own mask and satisfies the window invariant. -/
def LInv (levels : List (List Entry)) : Prop :=
  ∀ i : Nat, ∀ e ∈ levels.getD i [], e.mask = i ∧ WInv e

/-- `192.0.2.0` as a `u32`. -/
def addr19202 : Nat := 3221225984

/-- `192.0.3.0` as a `u32`. -/
def addr19203 : Nat := 3221226240

/-- `2001:db8::` as a `u128`. -/
def addrDb8 : Nat := 0x20010db8 * 2 ^ 96

/-- Rust `&str` / `String` modelled as its UTF-8 byte sequence (each byte a
`Nat < 256`). -/
abbrev RStr := List Nat

/-- A byte that is a UTF-8 continuation byte (`0b10xxxxxx`). -/
def isContinuation (b : Nat) : Bool := 128 ≤ b && b < 192

/-- Rust `str::is_char_boundary`: index 0 and the length are boundaries; an
interior index is a boundary iff its byte is not a continuation byte; an
index past the end is not. -/
def isCharBoundary (s : RStr) (i : Nat) : Bool :=
  i == 0 || i == s.length || (decide (i < s.length) && !isContinuation (s.getD i 0))

/-- Rust `s.get(0..k)`: `Some` of the byte slice when `k` is a char
boundary (which implies `k ≤ len`), else `None`. -/
def getTo (s : RStr) (k : Nat) : Option RStr :=
  if isCharBoundary s k then some (s.take k) else none

/-- Rust `&s[..i]`: panics when `i` is not a char boundary. -/
def sliceTo (s : RStr) (i : Nat) : Res RStr :=
  if isCharBoundary s i then .ok (s.take i) else .panic

/-- Rust `&s[i..]`: panics when `i` is not a char boundary. -/
def sliceFrom (s : RStr) (i : Nat) : Res RStr :=
  if isCharBoundary s i then .ok (s.drop i) else .panic

/-- ASCII lowercasing of one byte. -/
def asciiLower (b : Nat) : Nat := if 65 ≤ b ∧ b ≤ 90 then b + 32 else b

/-- Rust `str::eq_ignore_ascii_case`. -/
def eqIgnoreAsciiCase (a b : RStr) : Bool := a.map asciiLower == b.map asciiLower

/-- Value of one ASCII digit byte in the given radix (Rust
`char::to_digit`); `none` for non-digits. -/
def digitVal (radix b : Nat) : Option Nat :=
  let v : Option Nat :=
    if 48 ≤ b ∧ b ≤ 57 then some (b - 48)
    else if 97 ≤ b ∧ b ≤ 122 then some (b - 87)
    else if 65 ≤ b ∧ b ≤ 90 then some (b - 55)
    else none
  match v with
  | some d => if d < radix then some d else none
  | none => none

/-- Digit-accumulation loop of Rust `from_str_radix` for an unsigned type
with exclusive bound `bound`: consumes leading digit bytes, failing (not
stopping) on overflow; returns the value and the remaining input. -/
def parseDigits (bound : Nat) : RStr → Nat → Option Nat
  | [], acc => some acc
  | b :: bs, acc =>
    match digitVal 10 b with
    | some d => if acc * 10 + d < bound then parseDigits bound bs (acc * 10 + d) else none
    | none => none

/-- Strip the optional leading `+` sign accepted by Rust `from_str_radix`
for unsigned types. -/
def stripPlus : RStr → RStr
  | 43 :: rest => rest
  | s => s

/-- Rust `str::parse::<uN>` (`from_str_radix` with radix 10): an optional
leading `+`, then one or more decimal digits, checked against the type's
bound. -/
def parseUnsigned (bound : Nat) (s : RStr) : Option Nat :=
  if stripPlus s = [] then none else parseDigits bound (stripPlus s) 0

/-- Rust `str::parse::<u32>`. -/
def parseU32 (s : RStr) : Option Nat := parseUnsigned (2 ^ 32) s

/-- Rust `str::parse::<u8>`. -/
def parseU8 (s : RStr) : Option Nat := parseUnsigned (2 ^ 8) s

/-- `parse_autnum` from `irr.rs`: requires the literal prefix `"AS"` or
`"as"` (uniform case — `starts_with` is case-sensitive), then parses the
rest as `u32`.  `none` models the `InvalidData` error. -/
def parse_autnum (input : RStr) : Option Nat :=
  if [65, 83].isPrefixOf input || [97, 115].isPrefixOf input then
    parseU32 (input.drop 2)
  else none

/-- Rust `str::split(sep)` at the byte level (the separators used are the
ASCII bytes `'/'` and `':'`, which cannot occur inside a multi-byte UTF-8
character). -/
def splitByte (sep : Nat) : RStr → List RStr
  | [] => [[]]
  | c :: rest =>
    if c = sep then [] :: splitByte sep rest
    else
      match splitByte sep rest with
      | t :: ts => (c :: t) :: ts
      | [] => [[c]]

/-- A parser over a byte string: returns the parsed value and the rest;
`none` is failure (with state rolled back, as `Parser::read_atomically`
does). -/
abbrev P (α : Type) := RStr → Option (α × RStr)

/-- `Parser::read_number` from `core::net::parser`: greedily reads digit
chars in `radix`, with checked accumulation in the target type (exclusive
bound `bound`), at most `maxD` digits, and — unless `allowZero` — rejecting
a multi-digit number with a leading zero. -/
def readNumber (radix maxD bound : Nat) (allowZero : Bool) : P Nat := fun s =>
  let lead0 : Bool := decide (s.headD 0 = 48) && decide (s ≠ [])
  let rec go : RStr → Nat → Nat → Option (Nat × Nat × RStr)
    | t, acc, cnt =>
      match t with
      | [] => some (acc, cnt, [])
      | b :: rest =>
        match digitVal radix b with
        | some d =>
          if acc * radix + d < bound then
            if cnt + 1 > maxD then none else go rest (acc * radix + d) (cnt + 1)
          else none
        | none => some (acc, cnt, t)
  match go s 0 0 with
  | none => none
  | some (acc, cnt, rest) =>
    if cnt = 0 then none
    else if !allowZero && lead0 && cnt > 1 then none
    else some (acc, rest)

/-- `Parser::read_separator`: when the group index is positive, first
require the separator byte. -/
def readSep (sep i : Nat) (inner : P α) : P α := fun s =>
  if i = 0 then inner s
  else
    match s with
    | c :: rest => if c = sep then inner rest else none
    | [] => none

/-- `Parser::read_ipv4_addr`: four dot-separated octets, each 1–3 decimal
digits without leading zeros, checked against `u8`. -/
def readIpv4 : P Nat := fun s =>
  (readSep 46 0 (readNumber 10 3 256 false) s).bind fun (o1, s) =>
  (readSep 46 1 (readNumber 10 3 256 false) s).bind fun (o2, s) =>
  (readSep 46 2 (readNumber 10 3 256 false) s).bind fun (o3, s) =>
  (readSep 46 3 (readNumber 10 3 256 false) s).bind fun (o4, s) =>
  some (((o1 * 256 + o2) * 256 + o3) * 256 + o4, s)

/-- The `read_groups` helper of `Parser::read_ipv6_addr`: reads up to `r`
more colon-separated 16-bit hex groups starting at group index `i`,
accepting a trailing embedded IPv4 address when at least two slots remain.
Returns the groups read, whether an embedded IPv4 address ended the run,
and the rest of the input. -/
def readGroupsGo : Nat → Nat → List Nat → RStr → List Nat × Bool × RStr
  | _, 0, acc, s => (acc, false, s)
  | i, r + 1, acc, s =>
    match (if 1 ≤ r then readSep 58 i readIpv4 s else none) with
    | some (v4, rest) => (acc ++ [v4 / 2 ^ 16, v4 % 2 ^ 16], true, rest)
    | none =>
      match readSep 58 i (readNumber 16 4 65536 true) s with
      | some (g, rest) => readGroupsGo (i + 1) r (acc ++ [g]) rest
      | none => (acc, false, s)

/-- Big-endian value of a list of 16-bit groups. -/
def groupsVal (gs : List Nat) : Nat := gs.foldl (fun a g => a * 65536 + g) 0

/-- `Parser::read_ipv6_addr`: a head run of groups; 8 groups is a complete
address; otherwise (no embedded IPv4 in the head) `::` followed by a tail
run filling at most the remaining slots, with the gap zero-filled. -/
def readIpv6 : P Nat := fun s =>
  let (head, headV4, s1) := readGroupsGo 0 8 [] s
  if head.length = 8 then some (groupsVal head, s1)
  else if headV4 then none
  else
    match s1 with
    | 58 :: 58 :: s2 =>
      let (tail, _, s3) := readGroupsGo 0 (8 - (head.length + 1)) [] s2
      some (groupsVal (head ++ List.replicate (8 - head.length - tail.length) 0 ++ tail), s3)
    | _ => none

/-- `Parser::read_ip_addr`: IPv4 first, otherwise IPv6. -/
def readIpAddr : P IpAddr := fun s =>
  match readIpv4 s with
  | some (v, rest) => some (.v4 v, rest)
  | none =>
    match readIpv6 s with
    | some (v, rest) => some (.v6 v, rest)
    | none => none

/-- `"…".parse::<IpAddr>()`: the reader must consume the whole string. -/
def parseIpAddr (s : RStr) : Option IpAddr :=
  match readIpAddr s with
  | some (a, []) => some a
  | _ => none

/-- `parse_prefix` from `irr.rs`: split on `'/'`, demand exactly two
pieces, parse the left as an `IpAddr` and the right as a `u8`.  `none`
models the `InvalidData` error. -/
def parse_prefix (input : RStr) : Option Prefix :=
  match splitByte 47 input with
  | [ip, m] =>
    match parseIpAddr ip, parseU8 m with
    | some a, some mv => some (a, mv)
    | _, _ => none
  | _ => none

/-- `filterclass.rs`: the `Query` variants. -/
inductive Query where
  | asSet (s : RStr)
  | routeSet (s : RStr)
  | autNum (n : Nat)
deriving DecidableEq, Repr

/-- `parse_name_component`: match on `input.get(0..3)`; the first two
guards compare against `"as-"` / `"rs-"` case-insensitively; the third
guard slices `name[..2]` — an unchecked byte-index slice that panics when
byte 2 of the name is not a char boundary — and on a match parses
`input[2..]` as `u32`.  `ok none` models `Err(InvalidQuery)`. -/
def parseNameComponent (input : RStr) : Res (Option Query) :=
  match getTo input 3 with
  | some name =>
    if eqIgnoreAsciiCase name [97, 115, 45] then .ok (some (.asSet input))
    else if eqIgnoreAsciiCase name [114, 115, 45] then .ok (some (.routeSet input))
    else do
      let nm2 ← sliceTo name 2
      if eqIgnoreAsciiCase nm2 [97, 115] then do
        let rest ← sliceFrom input 2
        match parseU32 rest with
        | some n => pure (some (.autNum n))
        | none => pure none
      else pure none
  | none => .ok none

/-- The hierarchical walk of `Query::try_from`: AS-number components and
invalid components are skipped; the first set component fixes the class. -/
def walkComponents (input : RStr) : List RStr → Res (Option Query)
  | [] => .ok none
  | e :: es => do
    let r ← parseNameComponent e
    match r with
    | some (.asSet _) => .ok (some (.asSet input))
    | some (.routeSet _) => .ok (some (.routeSet input))
    | some (.autNum _) => walkComponents input es
    | none => walkComponents input es

/-- `Query::try_from(&str)`: hierarchical names (containing `':'`) are
split and walked; flat names classify by their first component. -/
def queryTryFrom (input : RStr) : Res (Option Query) :=
  if 58 ∈ input then walkComponents input (splitByte 58 input)
  else parseNameComponent input

/-- One logical reply frame of the IRRd protocol, as classified by the
status-line match in `read_reply` (`irr.rs`): an `A<n>` data frame with its
payload, a bare `C`, a `D`, an `E`, an `F<msg>`, or an unrecognized code. -/
inductive Frame where
  | a (payload : RStr)
  | c
  | d
  | e
  | f (msg : RStr)
  | bad
deriving DecidableEq, Repr

/-- Client connection state: queries flushed to the wire, queries written
but still buffered (`BufStream`), and the incoming reply frame stream. -/
structure ConnState where
  sent : List RStr
  buffered : List RStr
  frames : List Frame
deriving DecidableEq, Repr

/-- `writeln!(self.stream, …)`: append one line to the write buffer. -/
def writeLine (line : RStr) (st : ConnState) : ConnState :=
  { st with buffered := st.buffered ++ [line] }

/-- `self.stream.flush()`: move the buffered queries onto the wire. -/
def flushSt (st : ConnState) : ConnState :=
  { st with sent := st.sent ++ st.buffered, buffered := [] }

/-- The `loop` of `read_reply`: `A` frames store the payload and continue;
a `C` with a stored payload returns it, a bare `C` (init-line ack) is
silently consumed; `D` returns "not found"; `E`, `F` and unknown codes
fail; an exhausted stream is an I/O error. -/
def readReplyGo : List Frame → Option RStr → Res (Option RStr × List Frame)
  | [], _ => .ioErr
  | .a p :: rest, _ => readReplyGo rest (some p)
  | .c :: rest, r =>
    match r with
    | some p => .ok (some p, rest)
    | none => readReplyGo rest none
  | .d :: rest, _ => .ok (none, rest)
  | .e :: _, _ => .protoErr
  | .f _ :: _, _ => .protoErr
  | .bad :: _, _ => .invalidData

/-- `read_reply`, started with no accumulated payload. -/
def readReply (fs : List Frame) : Res (Option RStr × List Frame) :=
  readReplyGo fs none

/-- `str::split_whitespace` over the ASCII whitespace bytes (IRRd payloads
are ASCII; tab, LF, VT, FF, CR and space). -/
def isWsByte (b : Nat) : Bool := b == 32 || (9 ≤ b && b ≤ 13)

/-- Tokenizer worker: `cur` holds the current token reversed. -/
def splitWsGo : RStr → RStr → List RStr
  | [], cur => if cur = [] then [] else [cur.reverse]
  | b :: rest, cur =>
    if isWsByte b then
      if cur = [] then splitWsGo rest [] else cur.reverse :: splitWsGo rest []
    else splitWsGo rest (b :: cur)

/-- Whitespace-separated tokens of a payload. -/
def splitWs (s : RStr) : List RStr := splitWsGo s []

/-- The reserved/invalid AS-number test of `resolve_as_sets`:
`0 | 23_456 | 64_496..=65_535 | 4_200_000_000..=4_294_967_294`. -/
def isReserved (n : Nat) : Bool :=
  n == 0 || n == 23456 || (decide (64496 ≤ n) && decide (n ≤ 65535)) ||
    (decide (4200000000 ≤ n) && decide (n ≤ 4294967294))

/-- The token loop of `resolve_as_sets` for one reply payload: every token
must `parse_autnum` (an error aborts the whole call); reserved numbers are
skipped; the rest are pushed in arrival order. -/
def pushAutnums : List RStr → Res (List Nat)
  | [] => .ok []
  | t :: ts =>
    match parse_autnum t with
    | none => .invalidData
    | some n => do
      let rest ← pushAutnums ts
      if isReserved n then pure rest else pure (n :: rest)

/-- Sequential parse of every token via `parse_autnum` (specification
helper: the list of parsed numbers when no token fails). -/
def parseAll : List RStr → Option (List Nat)
  | [] => some []
  | t :: ts =>
    match parse_autnum t with
    | none => none
    | some n =>
      match parseAll ts with
      | none => none
      | some ns => some (n :: ns)

/-- Decimal digit bytes of `n` (Rust `Display` for integers). -/
def natBytes (n : Nat) : RStr := (toString n).toList.map Char.toNat

/-- The `!i<name>,1\n` query line. -/
def setQueryLine (name : RStr) : RStr := [33, 105] ++ name ++ [44, 49, 10]

/-- The `!gas<n>\n` query line. -/
def gasLine (n : Nat) : RStr := [33, 103, 97, 115] ++ natBytes n ++ [10]

/-- The `!6as<n>\n` query line. -/
def as6Line (n : Nat) : RStr := [33, 54, 97, 115] ++ natBytes n ++ [10]

/-- Reply-consumption loop of `resolve_as_sets`: one logical reply per set
name, in the same order as the queries were written; a `D` reply leaves
the entry's list empty. -/
def readAsSetsLoop : List RStr → List Frame → Res (List (RStr × List Nat) × List Frame)
  | [], fs => .ok ([], fs)
  | name :: ns, fs => do
    let (r, fs1) ← readReply fs
    let nums ← (match r with
      | none => (pure [] : Res (List Nat))
      | some payload => pushAutnums (splitWs payload))
    let (rest, fs2) ← readAsSetsLoop ns fs1
    pure ((name, nums) :: rest, fs2)

/-- `resolve_as_sets`: write one `!i<name>,1` per name, flush, then read
one reply per name in order. -/
def resolveAsSets (names : List RStr) (st : ConnState) :
    Res (List (RStr × List Nat) × ConnState) :=
  let st1 := names.foldl (fun acc nm => writeLine (setQueryLine nm) acc) st
  let st2 := flushSt st1
  (readAsSetsLoop names st2.frames).bind fun (m, fs) => .ok (m, { st2 with frames := fs })

/-- The per-reply token loop of `resolve_autnums`: each token must parse as
a prefix (`InvalidData` otherwise), and an `assert!` checks the prefix's
family matches the query family (4 or 6) — a mismatch is a panic. -/
def pushPrefixes (fam : Nat) : List RStr → Res (List Prefix)
  | [] => .ok []
  | t :: ts =>
    match parse_prefix t with
    | none => .invalidData
    | some p =>
      if (if fam = 4 then p.1.fam == 0 else p.1.fam == 1) then do
        let rest ← pushPrefixes fam ts
        pure (p :: rest)
      else .panic

/-- Process one optional reply payload of `resolve_autnums`. -/
def parsePrefixList (fam : Nat) : Option RStr → Res (List Prefix)
  | none => .ok []
  | some payload => pushPrefixes fam (splitWs payload)

/-- Reply-consumption loop of `resolve_autnums`: per ASN, two consecutive
logical replies — IPv4 first, then IPv6 — concatenated into that ASN's
prefix list. -/
def readAutnumsLoop : List Nat → List Frame → Res (List (Nat × List Prefix) × List Frame)
  | [], fs => .ok ([], fs)
  | n :: ns, fs => do
    let (r4, fs1) ← readReply fs
    let l4 ← parsePrefixList 4 r4
    let (r6, fs2) ← readReply fs1
    let l6 ← parsePrefixList 6 r6
    let (rest, fs3) ← readAutnumsLoop ns fs2
    pure ((n, l4 ++ l6) :: rest, fs3)

/-- The query lines of `resolve_autnums`, in write order: `!gas<n>` then
`!6as<n>` per ASN. -/
def autnumQueries : List Nat → List RStr
  | [] => []
  | n :: ns => gasLine n :: as6Line n :: autnumQueries ns

/-- `resolve_autnums`: write both query lines for every ASN, flush once,
then read all replies. -/
def resolveAutnums (asns : List Nat) (st : ConnState) :
    Res (List (Nat × List Prefix) × ConnState) :=
  let st1 := asns.foldl (fun acc n => writeLine (as6Line n) (writeLine (gasLine n) acc)) st
  let st2 := flushSt st1
  (readAutnumsLoop asns st2.frames).bind fun (m, fs) => .ok (m, { st2 with frames := fs })

/-- Read `k` consecutive logical replies (the specification's view of a
pipelined batch). -/
def takeReplies : Nat → List Frame → Res (List (Option RStr) × List Frame)
  | 0, fs => .ok ([], fs)
  | k + 1, fs => do
    let (r, fs1) ← readReply fs
    let (rs, fs2) ← takeReplies k fs1
    pure (r :: rs, fs2)

set_option maxRecDepth 8000

namespace Res

@[simp] theorem pure_eq_ok (a : α) : (pure a : Res α) = Res.ok a := rfl

@[simp] theorem ok_bind (a : α) (f : α → Res β) : Res.ok a >>= f = f a := rfl

@[simp] theorem panic_bind (f : α → Res β) : (Res.panic : Res α) >>= f = .panic := rfl

@[simp] theorem fuel_bind (f : α → Res β) : (Res.fuel : Res α) >>= f = .fuel := rfl

@[simp] theorem ioErr_bind (f : α → Res β) : (Res.ioErr : Res α) >>= f = .ioErr := rfl

@[simp] theorem protoErr_bind (f : α → Res β) : (Res.protoErr : Res α) >>= f = .protoErr := rfl

@[simp] theorem invalidData_bind (f : α → Res β) : (Res.invalidData : Res α) >>= f = .invalidData := rfl

@[simp] theorem bind_eq_bind (x : Res α) (f : α → Res β) : Res.bind x f = x >>= f := rfl

/-- Inversion principle: a bind succeeds exactly when both stages do. -/
theorem bind_eq_ok {x : Res α} {f : α → Res β} {b : β} :
    (x >>= f) = .ok b ↔ ∃ a, x = .ok a ∧ f a = .ok b := by
  cases x <;> simp [Bind.bind, Res.bind]

end Res

/-- The inner scan preserves the length of the tail it rewrites. -/
theorem scanB_length {a a2 : Entry} {bs bs2 nx : List Entry} {ch : Bool}
    (h : scanB a bs = .ok (a2, bs2, nx, ch)) : bs2.length = bs.length := by
  induction bs generalizing a a2 bs2 nx ch with
  | nil =>
    simp only [scanB, pure, Res.ok.injEq, Prod.mk.injEq] at h
    simp [← h.2.1]
  | cons b bs ih =>
    rw [scanB] at h
    split at h
    · rw [Res.bind_eq_ok] at h
      obtain ⟨clu, hc, h⟩ := h
      split at h
      · rw [Res.bind_eq_ok] at h
        obtain ⟨m, hm, h⟩ := h
        rw [Res.bind_eq_ok] at h
        obtain ⟨⟨a3, bs3, nx3, ch3⟩, hrec, h⟩ := h
        simp only [pure, Res.ok.injEq, Prod.mk.injEq] at h
        have := ih hrec
        simp [← h.2.1, this]
      · rw [Res.bind_eq_ok] at h
        obtain ⟨r2, hr2, h⟩ := h
        split at h
        · rw [Res.bind_eq_ok] at h
          obtain ⟨⟨a3, bs3, nx3, ch3⟩, hrec, h⟩ := h
          simp only [pure, Res.ok.injEq, Prod.mk.injEq] at h
          have := ih hrec
          simp [← h.2.1, this]
        · rw [Res.bind_eq_ok] at h
          obtain ⟨t, ht, h⟩ := h
          split at h
          · rw [Res.bind_eq_ok] at h
            obtain ⟨⟨a3, bs3, nx3, ch3⟩, hrec, h⟩ := h
            simp only [pure, Res.ok.injEq, Prod.mk.injEq] at h
            have := ih hrec
            simp [← h.2.1, this]
          · simp only [pure, Res.ok.injEq, Prod.mk.injEq] at h
            simp [← h.2.1]
    · rw [Res.bind_eq_ok] at h
      obtain ⟨⟨a3, bs3, nx3, ch3⟩, hrec, h⟩ := h
      simp only [pure, Res.ok.injEq, Prod.mk.injEq] at h
      have := ih hrec
      simp [← h.2.1, this]

/-- Boolean xor is false exactly on equal bits. -/
theorem bxor_false {a b : Bool} (h : (a ^^ b) = false) : a = b := by
  cases a <;> cases b <;> simp_all

/-- Equal high bits stay equal under coarser truncation. -/
theorem shiftRight_congr {x y : Nat} (s t : Nat) (hst : s ≤ t)
    (h : x >>> s = y >>> s) : x >>> t = y >>> t := by
  have ht : t = s + (t - s) := by omega
  rw [ht, Nat.shiftRight_add, Nat.shiftRight_add, h]

/-- Two numbers differing in exactly bit `k` agree above bit `k`. -/
theorem xor_two_pow_shiftRight {x y k : Nat} (h : x ^^^ y = 2 ^ k) :
    x >>> (k + 1) = y >>> (k + 1) := by
  apply Nat.eq_of_testBit_eq
  intro i
  simp only [Nat.testBit_shiftRight]
  have hb : (x ^^^ y).testBit (k + 1 + i) = false := by
    rw [h, Nat.testBit_two_pow]
    simp only [decide_eq_false_iff_not]
    omega
  rw [Nat.testBit_xor] at hb
  exact bxor_false hb

/-- Two numbers differing in exactly bit `k` differ. -/
theorem xor_two_pow_ne {x y k : Nat} (h : x ^^^ y = 2 ^ k) : x ≠ y := by
  intro heq
  subst heq
  rw [Nat.xor_self] at h
  exact (Nat.two_pow_pos k).ne' h.symm

/-- A number contained in a block at depth `k+1` lies in one of its two
half-blocks at depth `k`, given the two halves' representatives. -/
theorem half_split {x p q k : Nat} (hpq : p ^^^ q = 2 ^ k)
    (h : x >>> (k + 1) = p >>> (k + 1)) :
    x >>> k = p >>> k ∨ x >>> k = q >>> k := by
  have high : ∀ i, x.testBit (k + (i + 1)) = p.testBit (k + (i + 1)) := by
    intro i
    have h1 := congrArg (fun z => Nat.testBit z i) h
    simp only [Nat.testBit_shiftRight] at h1
    have h4 : k + 1 + i = k + (i + 1) := by omega
    rwa [h4] at h1
  have highq : ∀ i, p.testBit (k + (i + 1)) = q.testBit (k + (i + 1)) := by
    intro i
    have h2 : (p ^^^ q).testBit (k + (i + 1)) = false := by
      rw [hpq, Nat.testBit_two_pow]
      simp only [decide_eq_false_iff_not]
      omega
    rw [Nat.testBit_xor] at h2
    exact bxor_false h2
  by_cases hb : x.testBit k = p.testBit k
  · left
    apply Nat.eq_of_testBit_eq
    intro i
    simp only [Nat.testBit_shiftRight]
    match i with
    | 0 => simpa using hb
    | i + 1 =>
      exact high i
  · right
    apply Nat.eq_of_testBit_eq
    intro i
    simp only [Nat.testBit_shiftRight]
    match i with
    | 0 =>
      simp only [Nat.add_zero]
      have hq : (p ^^^ q).testBit k = true := by
        rw [hpq, Nat.testBit_two_pow]; simp
      rw [Nat.testBit_xor] at hq
      cases hx : x.testBit k <;> cases hp : p.testBit k <;>
        cases hqq : q.testBit k <;> simp_all
    | i + 1 =>
      exact (high i).trans (highq i)

theorem okU_mono {l1 l2 : List Entry} (h : ∀ e ∈ l1, e ∈ l2) {q : Prefix} :
    okU l1 q → okU l2 q := fun ⟨e, he, hv, ha⟩ => ⟨e, h e he, hv, ha⟩

theorem okU_append {l1 l2 : List Entry} {q : Prefix} :
    okU (l1 ++ l2) q ↔ okU l1 q ∨ okU l2 q := by
  constructor
  · rintro ⟨e, he, hv, ha⟩
    rcases List.mem_append.mp he with h | h
    · exact Or.inl ⟨e, h, hv, ha⟩
    · exact Or.inr ⟨e, h, hv, ha⟩
  · rintro (⟨e, he, hv, ha⟩ | ⟨e, he, hv, ha⟩)
    · exact ⟨e, List.mem_append.mpr (Or.inl he), hv, ha⟩
    · exact ⟨e, List.mem_append.mpr (Or.inr he), hv, ha⟩

/-- The entry sort order refines the prefix-field order. -/
theorem entryRel_pfxLe {a b : Entry} (h : entryRel a b) : pfxLe a.pfx b.pfx := by
  rw [entryRel, Entry.sortKey, Entry.sortKey, Prod.Lex.le_iff] at h
  rcases h with h | ⟨h1, h2⟩
  · exact Or.inl h
  · rw [Prod.Lex.le_iff] at h2
    rcases h2 with h2 | ⟨h2, -⟩
    · exact Or.inr ⟨h1, le_of_lt h2⟩
    · exact Or.inr ⟨h1, le_of_eq h2⟩

theorem chkSub_ok {a b v : Nat} (h : chkSub a b = .ok v) : b ≤ a ∧ v = a - b := by
  rw [chkSub] at h
  split at h
  · simp only [Res.ok.injEq] at h
    exact ⟨‹_›, h.symm⟩
  · cases h

theorem chkShr_ok {w a t v : Nat} (h : chkShr w a t = .ok v) : t < w ∧ v = a >>> t := by
  rw [chkShr] at h
  split at h
  · simp only [Res.ok.injEq] at h
    exact ⟨‹_›, h.symm⟩
  · cases h

theorem chkAdd_ok {w a b v : Nat} (h : chkAdd w a b = .ok v) : a + b < 2 ^ w ∧ v = a + b := by
  rw [chkAdd] at h
  split at h
  · simp only [Res.ok.injEq] at h
    exact ⟨‹_›, h.symm⟩
  · cases h

/-- Same family tag means same constructor-level facts. -/
theorem fam_eq_width {x y : IpAddr} (h : x.fam = y.fam) : x.width = y.width := by
  cases x <;> cases y <;> simp_all [IpAddr.fam, IpAddr.width]

/-- Everything `can_level_up_with` establishes when it answers `true`:
equal windows, a positive mask not exceeding the family width, a common
family, and network addresses differing in exactly the sibling bit. -/
theorem clu_ok_true {a b : Entry} (h : canLevelUpWith a b = .ok true) :
    a.min = b.min ∧ a.max = b.max ∧ 1 ≤ a.mask ∧ a.mask ≤ a.pfx.width ∧
    a.pfx.fam = b.pfx.fam ∧
    a.pfx.val ^^^ b.pfx.val = 2 ^ (a.pfx.width - a.mask) := by
  rw [canLevelUpWith] at h
  rw [Res.bind_eq_ok] at h
  obtain ⟨ov, hov, h⟩ := h
  simp only [Res.pure_eq_ok, Res.ok.injEq, Bool.and_eq_true, decide_eq_true_eq] at h
  obtain ⟨⟨hb, hmin⟩, hmax⟩ := h
  subst hb
  cases ha : a.pfx with
  | v4 x =>
    cases hbp : b.pfx with
    | v4 y =>
      rw [ha, hbp] at hov
      rw [Res.bind_eq_ok] at hov
      obtain ⟨m1, hm1, hov⟩ := hov
      rw [Res.bind_eq_ok] at hov
      obtain ⟨sv, hsv, hov⟩ := hov
      obtain ⟨h1, rfl⟩ := chkSub_ok hm1
      obtain ⟨h2, rfl⟩ := chkShr_ok hsv
      simp only [Res.pure_eq_ok, Res.ok.injEq, decide_eq_true_eq] at hov
      have hx : (2 : Nat) ^ 31 >>> (a.mask - 1) = 2 ^ (32 - a.mask) := by
        rw [Nat.shiftRight_eq_div_pow, Nat.pow_div (by omega) (by norm_num)]
        congr 1
        omega
      rw [hx] at hov
      exact ⟨hmin, hmax, h1, by simp [IpAddr.width]; omega, by simp [IpAddr.fam],
        by simpa [IpAddr.val, IpAddr.width] using hov⟩
    | v6 y =>
      rw [ha, hbp] at hov
      simp only [Res.pure_eq_ok, Res.ok.injEq] at hov
      cases hov
  | v6 x =>
    cases hbp : b.pfx with
    | v4 y =>
      rw [ha, hbp] at hov
      simp only [Res.pure_eq_ok, Res.ok.injEq] at hov
      cases hov
    | v6 y =>
      rw [ha, hbp] at hov
      rw [Res.bind_eq_ok] at hov
      obtain ⟨m1, hm1, hov⟩ := hov
      rw [Res.bind_eq_ok] at hov
      obtain ⟨sv, hsv, hov⟩ := hov
      obtain ⟨h1, rfl⟩ := chkSub_ok hm1
      obtain ⟨h2, rfl⟩ := chkShr_ok hsv
      simp only [Res.pure_eq_ok, Res.ok.injEq, decide_eq_true_eq] at hov
      have hx : (2 : Nat) ^ 127 >>> (a.mask - 1) = 2 ^ (128 - a.mask) := by
        rw [Nat.shiftRight_eq_div_pow, Nat.pow_div (by omega) (by norm_num)]
        congr 1
        omega
      rw [hx] at hov
      exact ⟨hmin, hmax, h1, by simp [IpAddr.width]; omega, by simp [IpAddr.fam],
        by simpa [IpAddr.val, IpAddr.width] using hov⟩

/-- What the Rule-2 guard establishes when it answers `true`. -/
theorem rule2_ok_true {a b : Entry} (h : rule2Cond a b = .ok true) :
    a.pfx = b.pfx ∧ a.mask = b.mask ∧ b.min = a.min + 1 := by
  rw [rule2Cond] at h
  rw [Res.bind_eq_ok] at h
  obtain ⟨m1, hm1, h⟩ := h
  obtain ⟨-, rfl⟩ := chkAdd_ok hm1
  simp only [Res.pure_eq_ok, Res.ok.injEq, Bool.and_eq_true, decide_eq_true_eq] at h
  exact ⟨h.1.1, h.1.2, h.2.symm⟩

/-- Unpacked form of the accepted-prefix test. -/
theorem acceptsB_iff {e : Entry} {q : Prefix} :
    acceptsB e q = true ↔
      e.pfx.fam = q.1.fam ∧ e.mask ≤ q.2 ∧ e.min ≤ q.2 ∧ q.2 ≤ e.max ∧
      q.1.val >>> (e.pfx.width - e.mask) = e.pfx.val >>> (e.pfx.width - e.mask) := by
  simp [acceptsB, and_assoc]

/-- Rule 1, covering direction for the first operand: the parent block
accepts whatever the block itself accepts. -/
theorem acceptsB_parent {a : Entry} {m : Nat} (hm : m + 1 = a.mask) {q : Prefix}
    (h : acceptsB a q = true) : acceptsB { a with mask := m } q = true := by
  rw [acceptsB_iff] at h ⊢
  dsimp only
  obtain ⟨hf, h1, h2, h3, h4⟩ := h
  exact ⟨hf, by omega, h2, h3, shiftRight_congr _ _ (by omega) h4⟩

/-- Rule 1, covering direction for the sibling: the parent of `a` accepts
whatever the sibling entry `b` accepts. -/
theorem acceptsB_sib {a b : Entry} {q : Prefix}
    (hfam : a.pfx.fam = b.pfx.fam) (hxor : a.pfx.val ^^^ b.pfx.val = 2 ^ (a.pfx.width - a.mask))
    (h1 : 1 ≤ a.mask) (hwle : a.mask ≤ a.pfx.width) (hmask : b.mask = a.mask)
    (hmin : a.min = b.min) (hmax : a.max = b.max)
    (h : acceptsB b q = true) : acceptsB { a with mask := a.mask - 1 } q = true := by
  rw [acceptsB_iff] at h ⊢
  dsimp only
  obtain ⟨hf, hq1, hq2, hq3, hq4⟩ := h
  have hw : b.pfx.width = a.pfx.width := (fam_eq_width hfam).symm
  rw [hw, hmask] at hq4
  have hstep : q.1.val >>> (a.pfx.width - a.mask + 1) =
      a.pfx.val >>> (a.pfx.width - a.mask + 1) := by
    have hc := shiftRight_congr (a.pfx.width - a.mask) (a.pfx.width - a.mask + 1)
      (by omega) hq4
    have hx := xor_two_pow_shiftRight hxor
    exact hc.trans hx.symm
  have he : a.pfx.width - (a.mask - 1) = a.pfx.width - a.mask + 1 := by omega
  refine ⟨hfam.trans hf, by omega, hmin ▸ hq2, hmax ▸ hq3, ?_⟩
  rw [he]
  exact hstep

/-- Rule 1, splitting direction: whatever the parent accepts is accepted by
one of the two sibling blocks. -/
theorem acceptsB_split {a b : Entry} {q : Prefix}
    (hfam : a.pfx.fam = b.pfx.fam) (hxor : a.pfx.val ^^^ b.pfx.val = 2 ^ (a.pfx.width - a.mask))
    (h1 : 1 ≤ a.mask) (hwle : a.mask ≤ a.pfx.width) (hmask : b.mask = a.mask)
    (hmin : a.min = b.min) (hmax : a.max = b.max) (hwa : a.mask ≤ a.min)
    (h : acceptsB { a with mask := a.mask - 1 } q = true) :
    acceptsB a q = true ∨ acceptsB b q = true := by
  rw [acceptsB_iff] at h
  dsimp only at h
  obtain ⟨hf, hq1, hq2, hq3, hq4⟩ := h
  have he : a.pfx.width - (a.mask - 1) = a.pfx.width - a.mask + 1 := by omega
  rw [he] at hq4
  rcases half_split hxor hq4 with hc | hc
  · left
    rw [acceptsB_iff]
    exact ⟨hf, by omega, hq2, hq3, hc⟩
  · right
    rw [acceptsB_iff]
    have hw : b.pfx.width = a.pfx.width := (fam_eq_width hfam).symm
    refine ⟨hfam ▸ hf, by omega, hmin ▸ hq2, hmax ▸ hq3, ?_⟩
    rw [hw, hmask]
    exact hc

/-- Rule 2, covering direction: the widened window accepts whatever either
operand accepts. -/
theorem acceptsB_widen {a b : Entry} {q : Prefix}
    (hpfx : a.pfx = b.pfx) (hmask : a.mask = b.mask)
    (h : acceptsB a q = true ∨ acceptsB b q = true) :
    acceptsB { a with min := Nat.min a.min b.min, max := Nat.max a.max b.max } q = true := by
  rw [acceptsB_iff]
  dsimp only
  rcases h with h | h <;> rw [acceptsB_iff] at h <;> obtain ⟨hf, h1, h2, h3, h4⟩ := h
  · exact ⟨hf, h1, le_trans (Nat.min_le_left _ _) h2, le_trans h3 (Nat.le_max_left _ _), h4⟩
  · exact ⟨hpfx ▸ hf, by rw [hmask]; exact h1, le_trans (Nat.min_le_right _ _) h2,
      le_trans h3 (Nat.le_max_right _ _), by rw [hpfx, hmask]; exact h4⟩

/-- Rule 2, splitting direction: whatever the widened window accepts was
accepted by one of the operands. -/
theorem acceptsB_widen_inv {a b : Entry} {q : Prefix}
    (hpfx : a.pfx = b.pfx) (hmask : a.mask = b.mask) (hbmin : b.min = a.min + 1)
    (hwa : a.min ≤ a.max)
    (h : acceptsB { a with min := Nat.min a.min b.min, max := Nat.max a.max b.max } q = true) :
    acceptsB a q = true ∨ acceptsB b q = true := by
  rw [acceptsB_iff] at h
  dsimp only at h
  obtain ⟨hf, h1, h2, h3, h4⟩ := h
  have hmin2 : Nat.min a.min b.min = a.min := by
    rw [hbmin]; exact Nat.min_eq_left (by omega)
  rw [hmin2] at h2
  by_cases hc : q.2 ≤ a.max
  · left
    rw [acceptsB_iff]
    exact ⟨hf, h1, h2, hc, h4⟩
  · right
    rw [acceptsB_iff]
    have h5 : q.2 ≤ b.max := (le_max_iff.mp h3).resolve_left hc
    exact ⟨hpfx ▸ hf, by rw [← hmask]; exact h1, by omega, h5,
      by rw [← hpfx, ← hmask]; exact h4⟩

/-- Structural facts about one inner scan: the scanned entry keeps its
prefix, mask and `min`; the tail keeps its prefixes and masks positionally;
pushed entries sit one level up; and window invariants are preserved. -/
theorem scanB_facts : ∀ {a : Entry} {bs : List Entry} {a2 : Entry}
    {rest2 nx : List Entry} {ch : Bool},
    scanB a bs = .ok (a2, rest2, nx, ch) → WInv a → (∀ e ∈ bs, WInv e) →
    a2.pfx = a.pfx ∧ a2.mask = a.mask ∧ a2.min = a.min ∧
    rest2.map (fun e => (e.pfx, e.mask)) = bs.map (fun e => (e.pfx, e.mask)) ∧
    (∀ e ∈ nx, e.mask + 1 = a.mask) ∧
    WInv a2 ∧ (∀ e ∈ rest2, WInv e) ∧ (∀ e ∈ nx, WInv e) := by
  intro a bs
  induction bs generalizing a with
  | nil =>
    intro a2 rest2 nx ch h hwa hwbs
    simp only [scanB, Res.pure_eq_ok, Res.ok.injEq, Prod.mk.injEq] at h
    obtain ⟨h1, h2, h3, -⟩ := h
    subst h1; subst h2; subst h3
    exact ⟨rfl, rfl, rfl, rfl, by simp, hwa, by simp, by simp⟩
  | cons b bs ih =>
    intro a2 rest2 nx ch h hwa hwbs
    rw [scanB] at h
    split at h
    · rw [Res.bind_eq_ok] at h
      obtain ⟨clu, hclu, h⟩ := h
      split at h
      · rw [Res.bind_eq_ok] at h
        obtain ⟨m, hm, h⟩ := h
        rw [Res.bind_eq_ok] at h
        obtain ⟨⟨a3, bs3, nx3, ch3⟩, hrec, h⟩ := h
        simp only [Res.pure_eq_ok, Res.ok.injEq, Prod.mk.injEq] at h
        obtain ⟨h1, h2, h3, -⟩ := h
        subst h1; subst h2; subst h3
        obtain ⟨hm1, hm2⟩ := chkSub_ok hm
        have ihr := ih hrec (by exact hwa) (fun e he => hwbs e (List.mem_cons_of_mem b he))
        obtain ⟨p1, p2, p3, p4, p5, p6, p7, p8⟩ := ihr
        refine ⟨p1, p2, p3, by simp [p4], ?_, p6, ?_, ?_⟩
        · intro e he
          rcases List.mem_cons.mp he with rfl | he
          · dsimp only
            omega
          · exact p5 e he
        · intro e he
          rcases List.mem_cons.mp he with rfl | he
          · exact hwbs b (List.mem_cons_self b bs)
          · exact p7 e he
        · intro e he
          rcases List.mem_cons.mp he with rfl | he
          · have h9 := hwa.1
            exact ⟨by dsimp only; omega, hwa.2⟩
          · exact p8 e he
      · rw [Res.bind_eq_ok] at h
        obtain ⟨r2, hr2, h⟩ := h
        split at h
        · rw [Res.bind_eq_ok] at h
          obtain ⟨⟨a3, bs3, nx3, ch3⟩, hrec, h⟩ := h
          simp only [Res.pure_eq_ok, Res.ok.injEq, Prod.mk.injEq] at h
          obtain ⟨h1, h2, h3, -⟩ := h
          subst h1; subst h2; subst h3
          rename_i hr2t
          obtain ⟨hq1, hq2, hq3⟩ := rule2_ok_true (by rw [hr2, hr2t])
          have hbw := hwbs b (List.mem_cons_self b bs)
          have hmin3 : Nat.min a.min b.min = a.min := by
            rw [hq3]; exact Nat.min_eq_left (by omega)
          have hwa2 : WInv { a with min := Nat.min a.min b.min, max := Nat.max a.max b.max } := by
            constructor
            · dsimp only
              rw [hmin3]
              exact hwa.1
            · dsimp only
              rw [hmin3]
              exact le_trans hwa.2 (Nat.le_max_left _ _)
          have ihr := ih hrec hwa2 (fun e he => hwbs e (List.mem_cons_of_mem b he))
          obtain ⟨p1, p2, p3, p4, p5, p6, p7, p8⟩ := ihr
          refine ⟨p1, p2, by rw [p3]; dsimp only; exact hmin3, by simp [p4], p5, p6, ?_, p8⟩
          intro e he
          rcases List.mem_cons.mp he with rfl | he
          · exact hbw
          · exact p7 e he
        · rw [Res.bind_eq_ok] at h
          obtain ⟨t, ht, h⟩ := h
          split at h
          · rw [Res.bind_eq_ok] at h
            obtain ⟨⟨a3, bs3, nx3, ch3⟩, hrec, h⟩ := h
            simp only [Res.pure_eq_ok, Res.ok.injEq, Prod.mk.injEq] at h
            obtain ⟨h1, h2, h3, -⟩ := h
            subst h1; subst h2; subst h3
            have ihr := ih hrec hwa (fun e he => hwbs e (List.mem_cons_of_mem b he))
            obtain ⟨p1, p2, p3, p4, p5, p6, p7, p8⟩ := ihr
            refine ⟨p1, p2, p3, by simp [p4], p5, p6, ?_, p8⟩
            intro e he
            rcases List.mem_cons.mp he with rfl | he
            · exact hwbs e (List.mem_cons_self e bs)
            · exact p7 e he
          · simp only [Res.pure_eq_ok, Res.ok.injEq, Prod.mk.injEq] at h
            obtain ⟨h1, h2, h3, -⟩ := h
            subst h1; subst h2; subst h3
            exact ⟨rfl, rfl, rfl, rfl, by simp, hwa, hwbs, by simp⟩
    · rw [Res.bind_eq_ok] at h
      obtain ⟨⟨a3, bs3, nx3, ch3⟩, hrec, h⟩ := h
      simp only [Res.pure_eq_ok, Res.ok.injEq, Prod.mk.injEq] at h
      obtain ⟨h1, h2, h3, -⟩ := h
      subst h1; subst h2; subst h3
      have ihr := ih hrec hwa (fun e he => hwbs e (List.mem_cons_of_mem b he))
      obtain ⟨p1, p2, p3, p4, p5, p6, p7, p8⟩ := ihr
      refine ⟨p1, p2, p3, by simp [p4], p5, p6, ?_, p8⟩
      intro e he
      rcases List.mem_cons.mp he with rfl | he
      · exact hwbs e (List.mem_cons_self e bs)
      · exact p7 e he

/-- Soundness of one inner scan, left-to-right: every query accepted after
the scan (by the surviving entry, the rewritten tail or the promoted
entries) was already accepted before it. -/
theorem scanB_sub : ∀ {a : Entry} {bs : List Entry} {a2 : Entry}
    {rest2 nx : List Entry} {ch : Bool},
    scanB a bs = .ok (a2, rest2, nx, ch) →
    (∀ e ∈ bs, e.mask = a.mask) → WInv a →
    ∀ q, okU (a2 :: rest2 ++ nx) q → okU (a :: bs) q := by
  intro a bs
  induction bs generalizing a with
  | nil =>
    intro a2 rest2 nx ch h hmask hwa q hok
    simp only [scanB, Res.pure_eq_ok, Res.ok.injEq, Prod.mk.injEq] at h
    obtain ⟨h1, h2, h3, -⟩ := h
    subst h1; subst h2; subst h3
    simpa using hok
  | cons b bs ih =>
    intro a2 rest2 nx ch h hmask hwa q hok
    rw [scanB] at h
    split at h
    · rename_i hbv
      rw [Res.bind_eq_ok] at h
      obtain ⟨clu, hclu, h⟩ := h
      split at h
      · rename_i hcluT
        subst hcluT
        rw [Res.bind_eq_ok] at h
        obtain ⟨m, hm, h⟩ := h
        rw [Res.bind_eq_ok] at h
        obtain ⟨⟨a3, bs3, nx3, ch3⟩, hrec, h⟩ := h
        simp only [Res.pure_eq_ok, Res.ok.injEq, Prod.mk.injEq] at h
        obtain ⟨h1, h2, h3, -⟩ := h
        subst h1; subst h2; subst h3
        obtain ⟨hm1, hm2⟩ := chkSub_ok hm
        subst hm2
        obtain ⟨hq, hqm, hq1, hqw, hqf, hqx⟩ := clu_ok_true hclu
        obtain ⟨e, he, hv, hacc⟩ := hok
        rcases List.mem_cons.mp he with rfl | he
        · -- the surviving scanned entry, from the recursive scan
          have := ih hrec (fun e2 he2 => hmask e2 (List.mem_cons_of_mem b he2)) hwa q
            ⟨e, List.mem_cons_self _ _, hv, hacc⟩
          obtain ⟨w, hw, hwv, hwacc⟩ := this
          rcases List.mem_cons.mp hw with rfl | hw
          · simp at hwv
          · exact ⟨w, by simp [hw], hwv, hwacc⟩
        · rcases List.mem_append.mp he with he | he
          · rcases List.mem_cons.mp he with rfl | he
            · -- the invalidated b
              simp at hv
            · -- tail entry, from the recursive scan
              have := ih hrec (fun e2 he2 => hmask e2 (List.mem_cons_of_mem b he2)) hwa q
                ⟨e, by simp [he], hv, hacc⟩
              obtain ⟨w, hw, hwv, hwacc⟩ := this
              rcases List.mem_cons.mp hw with rfl | hw
              · simp at hwv
              · exact ⟨w, by simp [hw], hwv, hwacc⟩
          · rcases List.mem_cons.mp he with rfl | he
            · -- the merged parent entry
              have hav : a.valid = true := hv
              have hsplit := acceptsB_split hqf hqx hq1 hqw
                (hmask b (List.mem_cons_self b bs)) hq hqm hwa.1 hacc
              rcases hsplit with hca | hcb
              · exact ⟨a, List.mem_cons_self _ _, hav, hca⟩
              · exact ⟨b, by simp, hbv, hcb⟩
            · -- promoted by the recursive scan
              have := ih hrec (fun e2 he2 => hmask e2 (List.mem_cons_of_mem b he2)) hwa q
                ⟨e, by simp [he], hv, hacc⟩
              obtain ⟨w, hw, hwv, hwacc⟩ := this
              rcases List.mem_cons.mp hw with rfl | hw
              · simp at hwv
              · exact ⟨w, by simp [hw], hwv, hwacc⟩
      · rw [Res.bind_eq_ok] at h
        obtain ⟨r2, hr2, h⟩ := h
        split at h
        · rename_i hr2t
          subst hr2t
          rw [Res.bind_eq_ok] at h
          obtain ⟨⟨a3, bs3, nx3, ch3⟩, hrec, h⟩ := h
          simp only [Res.pure_eq_ok, Res.ok.injEq, Prod.mk.injEq] at h
          obtain ⟨h1, h2, h3, -⟩ := h
          subst h1; subst h2; subst h3
          obtain ⟨hp1, hp2, hp3⟩ := rule2_ok_true hr2
          have hmin3 : Nat.min a.min b.min = a.min := by
            rw [hp3]; exact Nat.min_eq_left (by omega)
          have hwa2 : WInv { a with min := Nat.min a.min b.min, max := Nat.max a.max b.max } := by
            exact ⟨by dsimp only; rw [hmin3]; exact hwa.1,
              by dsimp only; rw [hmin3]; exact le_trans hwa.2 (Nat.le_max_left _ _)⟩
          obtain ⟨e, he, hv, hacc⟩ := hok
          have hfeed : e = a3 ∨ e ∈ bs3 ++ nx3 ∨ e = { b with valid := false } := by
            rcases List.mem_cons.mp he with rfl | he
            · exact Or.inl rfl
            · rcases List.mem_append.mp he with he | he
              · rcases List.mem_cons.mp he with rfl | he
                · exact Or.inr (Or.inr rfl)
                · exact Or.inr (Or.inl (List.mem_append.mpr (Or.inl he)))
              · exact Or.inr (Or.inl (List.mem_append.mpr (Or.inr he)))
          rcases hfeed with rfl | he2 | rfl
          · have := ih hrec (fun e2 he2 => hmask e2 (List.mem_cons_of_mem b he2)) hwa2 q
              ⟨e, List.mem_cons_self _ _, hv, hacc⟩
            obtain ⟨w, hw, hwv, hwacc⟩ := this
            rcases List.mem_cons.mp hw with rfl | hw
            · -- the widened entry accepted it: split back onto a or b
              have hav : a.valid = true := hwv
              rcases acceptsB_widen_inv hp1 hp2 hp3 hwa.2 hwacc with hca | hcb
              · exact ⟨a, List.mem_cons_self _ _, hav, hca⟩
              · exact ⟨b, by simp, hbv, hcb⟩
            · exact ⟨w, by simp [hw], hwv, hwacc⟩
          · have := ih hrec (fun e2 he2 => hmask e2 (List.mem_cons_of_mem b he2)) hwa2 q
              ⟨e, by simp [he2], hv, hacc⟩
            obtain ⟨w, hw, hwv, hwacc⟩ := this
            rcases List.mem_cons.mp hw with rfl | hw
            · have hav : a.valid = true := hwv
              rcases acceptsB_widen_inv hp1 hp2 hp3 hwa.2 hwacc with hca | hcb
              · exact ⟨a, List.mem_cons_self _ _, hav, hca⟩
              · exact ⟨b, by simp, hbv, hcb⟩
            · exact ⟨w, by simp [hw], hwv, hwacc⟩
          · simp at hv
        · rw [Res.bind_eq_ok] at h
          obtain ⟨t, ht, h⟩ := h
          split at h
          · rw [Res.bind_eq_ok] at h
            obtain ⟨⟨a3, bs3, nx3, ch3⟩, hrec, h⟩ := h
            simp only [Res.pure_eq_ok, Res.ok.injEq, Prod.mk.injEq] at h
            obtain ⟨h1, h2, h3, -⟩ := h
            subst h1; subst h2; subst h3
            obtain ⟨e, he, hv, hacc⟩ := hok
            have hfeed : e ∈ a3 :: (bs3 ++ nx3) ∨ e = b := by
              rcases List.mem_cons.mp he with rfl | he
              · exact Or.inl (List.mem_cons_self _ _)
              · rcases List.mem_append.mp he with he | he
                · rcases List.mem_cons.mp he with rfl | he
                  · exact Or.inr rfl
                  · exact Or.inl (by simp [he])
                · exact Or.inl (by simp [he])
            rcases hfeed with he2 | rfl
            · have := ih hrec (fun e2 he2 => hmask e2 (List.mem_cons_of_mem b he2)) hwa q
                ⟨e, he2, hv, hacc⟩
              obtain ⟨w, hw, hwv, hwacc⟩ := this
              rcases List.mem_cons.mp hw with rfl | hw
              · exact ⟨w, List.mem_cons_self _ _, hwv, hwacc⟩
              · exact ⟨w, by simp [hw], hwv, hwacc⟩
            · exact ⟨e, by simp, hv, hacc⟩
          · simp only [Res.pure_eq_ok, Res.ok.injEq, Prod.mk.injEq] at h
            obtain ⟨h1, h2, h3, -⟩ := h
            subst h1; subst h2; subst h3
            simpa using hok
    · rw [Res.bind_eq_ok] at h
      obtain ⟨⟨a3, bs3, nx3, ch3⟩, hrec, h⟩ := h
      simp only [Res.pure_eq_ok, Res.ok.injEq, Prod.mk.injEq] at h
      obtain ⟨h1, h2, h3, -⟩ := h
      subst h1; subst h2; subst h3
      rename_i hbv
      obtain ⟨e, he, hv, hacc⟩ := hok
      have hfeed : e ∈ a3 :: (bs3 ++ nx3) ∨ e = b := by
        rcases List.mem_cons.mp he with rfl | he
        · exact Or.inl (List.mem_cons_self _ _)
        · rcases List.mem_append.mp he with he | he
          · rcases List.mem_cons.mp he with rfl | he
            · exact Or.inr rfl
            · exact Or.inl (by simp [he])
          · exact Or.inl (by simp [he])
      rcases hfeed with he2 | rfl
      · have := ih hrec (fun e2 he2 => hmask e2 (List.mem_cons_of_mem b he2)) hwa q
          ⟨e, he2, hv, hacc⟩
        obtain ⟨w, hw, hwv, hwacc⟩ := this
        rcases List.mem_cons.mp hw with rfl | hw
        · exact ⟨w, List.mem_cons_self _ _, hwv, hwacc⟩
        · exact ⟨w, by simp [hw], hwv, hwacc⟩
      · exact absurd hv hbv

/-- `IpAddr` equality through its family/value projections. -/
theorem IpAddr.eq_iff {x y : IpAddr} : x = y ↔ x.fam = y.fam ∧ x.val = y.val := by
  cases x <;> cases y <;> simp [IpAddr.fam, IpAddr.val]

/-- In a prefix-ordered run, nothing at or after `b` equals an `a` strictly
below `b`. -/
theorem pfx_ne_of_between {a b e : IpAddr} (hfam : a.fam = b.fam) (hne : a.val ≠ b.val)
    (hab : pfxLe a b) (hbe : pfxLe b e) : e ≠ a := by
  intro heq
  rw [heq] at hbe
  rcases hbe with hbe | ⟨hbe1, hbe2⟩
  · rw [hfam] at hbe
    exact lt_irrefl _ hbe
  · rcases hab with hab | ⟨-, hab2⟩
    · rw [hfam] at hab
      exact lt_irrefl _ hab
    · exact hne (le_antisymm hab2 hbe2)

set_option maxHeartbeats 1000000 in
/-- Completeness of one inner scan, right-to-left: every query accepted
before the scan is accepted afterwards, possibly through the context list
`ctx` covering the parent block of an already-invalidated scanned entry. -/
theorem scanB_sup : ∀ {a : Entry} {bs : List Entry} {a2 : Entry}
    {rest2 nx : List Entry} {ch : Bool} {ctx : List Entry},
    scanB a bs = .ok (a2, rest2, nx, ch) →
    (∀ e ∈ bs, e.mask = a.mask) →
    (∀ e ∈ bs, pfxLe a.pfx e.pfx) →
    bs.Pairwise (fun x y => pfxLe x.pfx y.pfx) →
    (a.valid = false →
      (∀ e ∈ bs, e.valid = true → e.pfx ≠ a.pfx) ∧
      (∀ q, acceptsB { a with mask := a.mask - 1 } q = true → okU ctx q)) →
    ∀ q, okU (a :: bs) q → okU ((a2 :: rest2 ++ nx) ++ ctx) q := by
  intro a bs
  induction bs generalizing a with
  | nil =>
    intro a2 rest2 nx ch ctx h hmask hsort1 hpair hcov q hok
    simp only [scanB, Res.pure_eq_ok, Res.ok.injEq, Prod.mk.injEq] at h
    obtain ⟨h1, h2, h3, -⟩ := h
    subst h1; subst h2; subst h3
    exact okU_mono (by intro e he; simp at he ⊢; tauto) hok
  | cons b bs ih =>
    intro a2 rest2 nx ch ctx h hmask hsort1 hpair hcov q hok
    have hpairhd : ∀ e ∈ bs, pfxLe b.pfx e.pfx := (List.pairwise_cons.mp hpair).1
    have hpairtl : bs.Pairwise (fun x y => pfxLe x.pfx y.pfx) := (List.pairwise_cons.mp hpair).2
    rw [scanB] at h
    split at h
    · rename_i hbv
      rw [Res.bind_eq_ok] at h
      obtain ⟨clu, hclu, h⟩ := h
      split at h
      · rename_i hcluT
        subst hcluT
        rw [Res.bind_eq_ok] at h
        obtain ⟨m, hm, h⟩ := h
        rw [Res.bind_eq_ok] at h
        obtain ⟨⟨a3, bs3, nx3, ch3⟩, hrec, h⟩ := h
        simp only [Res.pure_eq_ok, Res.ok.injEq, Prod.mk.injEq] at h
        obtain ⟨h1, h2, h3, -⟩ := h
        subst h1; subst h2; subst h3
        obtain ⟨hm1, hm2⟩ := chkSub_ok hm
        subst hm2
        obtain ⟨hcmin, hcmax, hc1, hcw, hcf, hcx⟩ := clu_ok_true hclu
        -- a is the lower sibling: a.val < b.val in the same family
        have hvne : a.pfx.val ≠ b.pfx.val := xor_two_pow_ne hcx
        have hvle : a.pfx.val ≤ b.pfx.val := by
          rcases hsort1 b (List.mem_cons_self b bs) with hlt | ⟨-, hle⟩
          · rw [hcf] at hlt
            exact absurd hlt (lt_irrefl _)
          · exact hle
        -- the parent record is accepted independently of the valid flag
        have haccpar : ∀ q2 : Prefix, acceptsB { a with valid := false, mask := a.mask - 1 } q2 =
            acceptsB { a with mask := a.mask - 1 } q2 := fun _ => rfl
        -- invariants for the recursive call on the invalidated a
        have hcov2 : ({ a with valid := false } : Entry).valid = false →
            (∀ e ∈ bs, e.valid = true → e.pfx ≠ ({ a with valid := false } : Entry).pfx) ∧
            (∀ q2, acceptsB { a with valid := false, mask := a.mask - 1 } q2 = true →
              okU ({ a with mask := a.mask - 1 } :: ctx) q2) := by
          intro _h
          constructor
          · intro e he hev
            exact pfx_ne_of_between hcf hvne (hsort1 b (List.mem_cons_self b bs))
              (hpairhd e he)
          · intro q2 hq2
            rcases hav : a.valid with _ | _
            · obtain ⟨-, hctx⟩ := hcov hav
              have := hctx q2 (by rw [← haccpar]; exact hq2)
              exact okU_mono (by intro e he; simp [he]) this
            · refine ⟨{ a with mask := a.mask - 1 }, by simp [hav],
                by dsimp only; exact hav, ?_⟩
              rw [← haccpar]
              exact hq2
        have hrecsup := ih hrec
          (fun e he => hmask e (List.mem_cons_of_mem b he))
          (fun e he => hsort1 e (List.mem_cons_of_mem b he))
          hpairtl hcov2 q
        obtain ⟨e, he, hv, hacc⟩ := hok
        rcases List.mem_cons.mp he with heq | he
        · -- witness was a itself
          rw [heq] at hv hacc
          refine ⟨{ a with mask := a.mask - 1 }, ?_, hv, acceptsB_parent (by omega) hacc⟩
          simp
        · rcases List.mem_cons.mp he with heq | he
          · -- witness was the sibling b
            rw [heq] at hv hacc
            have hpacc := acceptsB_sib hcf hcx hc1 hcw (hmask b (List.mem_cons_self b bs))
              hcmin hcmax hacc
            rcases hav : a.valid with _ | _
            · obtain ⟨-, hctx⟩ := hcov hav
              have := hctx q hpacc
              exact okU_mono (by intro x hx; simp [hx]) this
            · exact ⟨{ a with mask := a.mask - 1 }, by simp [hav],
                by dsimp only; exact hav, hpacc⟩
          · -- witness deeper in the tail: recurse
            have := hrecsup ⟨e, by simp [he], hv, hacc⟩
            refine okU_mono ?_ this
            intro x hx
            simp only [List.mem_append, List.mem_cons] at hx ⊢
            tauto
      · rw [Res.bind_eq_ok] at h
        obtain ⟨r2, hr2, h⟩ := h
        split at h
        · rename_i hr2t
          subst hr2t
          rw [Res.bind_eq_ok] at h
          obtain ⟨⟨a3, bs3, nx3, ch3⟩, hrec, h⟩ := h
          simp only [Res.pure_eq_ok, Res.ok.injEq, Prod.mk.injEq] at h
          obtain ⟨h1, h2, h3, -⟩ := h
          subst h1; subst h2; subst h3
          obtain ⟨hp1, hp2, hp3⟩ := rule2_ok_true hr2
          -- Rule 2 with an invalidated a is impossible: b would share its prefix
          rcases hav : a.valid with _ | _
          · obtain ⟨hnope, -⟩ := hcov hav
            exact absurd hp1.symm (hnope b (List.mem_cons_self b bs) hbv)
          · -- a valid: the widened entry covers both operands
            have hcov2 : ({ a with
                min := Nat.min a.min b.min,
                max := Nat.max a.max b.max } : Entry).valid = false →
                (∀ e ∈ bs, e.valid = true → e.pfx ≠ a.pfx) ∧
                (∀ q2, acceptsB { a with
                    min := Nat.min a.min b.min,
                    max := Nat.max a.max b.max, mask := a.mask - 1 } q2 = true →
                  okU ctx q2) := by
              intro hfalse
              exact absurd (show a.valid = false from hfalse) (by simp [hav])
            have hrecsup := ih hrec
              (fun e he => hmask e (List.mem_cons_of_mem b he))
              (fun e he => hsort1 e (List.mem_cons_of_mem b he))
              hpairtl hcov2 q
            obtain ⟨e, he, hv, hacc⟩ := hok
            have step : okU ({ a with
                min := Nat.min a.min b.min,
                max := Nat.max a.max b.max } :: bs) q := by
              rcases List.mem_cons.mp he with rfl | he
              · exact ⟨_, List.mem_cons_self _ _, hav, acceptsB_widen hp1 hp2 (Or.inl hacc)⟩
              · rcases List.mem_cons.mp he with rfl | he
                · exact ⟨_, List.mem_cons_self _ _, hav, acceptsB_widen hp1 hp2 (Or.inr hacc)⟩
                · exact ⟨e, by simp [he], hv, hacc⟩
            have := hrecsup step
            refine okU_mono ?_ this
            intro x hx
            simp only [List.mem_append, List.mem_cons] at hx ⊢
            tauto
        · rw [Res.bind_eq_ok] at h
          obtain ⟨t, ht, h⟩ := h
          split at h
          · rw [Res.bind_eq_ok] at h
            obtain ⟨⟨a3, bs3, nx3, ch3⟩, hrec, h⟩ := h
            simp only [Res.pure_eq_ok, Res.ok.injEq, Prod.mk.injEq] at h
            obtain ⟨h1, h2, h3, -⟩ := h
            subst h1; subst h2; subst h3
            have hcov2 : a.valid = false →
                (∀ e ∈ bs, e.valid = true → e.pfx ≠ a.pfx) ∧
                (∀ q2, acceptsB { a with mask := a.mask - 1 } q2 = true → okU ctx q2) := by
              intro hav
              obtain ⟨hnope, hctx⟩ := hcov hav
              exact ⟨fun e he => hnope e (List.mem_cons_of_mem b he), hctx⟩
            obtain ⟨e, he, hv, hacc⟩ := hok
            rcases List.mem_cons.mp he with rfl | he
            · have := ih hrec (fun e2 he2 => hmask e2 (List.mem_cons_of_mem b he2))
                (fun e2 he2 => hsort1 e2 (List.mem_cons_of_mem b he2)) hpairtl hcov2 q
                ⟨e, List.mem_cons_self _ _, hv, hacc⟩
              refine okU_mono ?_ this
              intro x hx
              simp only [List.mem_append, List.mem_cons] at hx ⊢
              tauto
            · rcases List.mem_cons.mp he with rfl | he
              · exact ⟨e, by simp, hv, hacc⟩
              · have := ih hrec (fun e2 he2 => hmask e2 (List.mem_cons_of_mem b he2))
                  (fun e2 he2 => hsort1 e2 (List.mem_cons_of_mem b he2)) hpairtl hcov2 q
                  ⟨e, by simp [he], hv, hacc⟩
                refine okU_mono ?_ this
                intro x hx
                simp only [List.mem_append, List.mem_cons] at hx ⊢
                tauto
          · simp only [Res.pure_eq_ok, Res.ok.injEq, Prod.mk.injEq] at h
            obtain ⟨h1, h2, h3, -⟩ := h
            subst h1; subst h2; subst h3
            exact okU_mono (by intro e he; simp at he ⊢; tauto) hok
    · rename_i hbv
      rw [Res.bind_eq_ok] at h
      obtain ⟨⟨a3, bs3, nx3, ch3⟩, hrec, h⟩ := h
      simp only [Res.pure_eq_ok, Res.ok.injEq, Prod.mk.injEq] at h
      obtain ⟨h1, h2, h3, -⟩ := h
      subst h1; subst h2; subst h3
      have hcov2 : a.valid = false →
          (∀ e ∈ bs, e.valid = true → e.pfx ≠ a.pfx) ∧
          (∀ q2, acceptsB { a with mask := a.mask - 1 } q2 = true → okU ctx q2) := by
        intro hav
        obtain ⟨hnope, hctx⟩ := hcov hav
        exact ⟨fun e he => hnope e (List.mem_cons_of_mem b he), hctx⟩
      obtain ⟨e, he, hv, hacc⟩ := hok
      have hfeed : e ∈ a :: bs := by
        rcases List.mem_cons.mp he with rfl | he
        · exact List.mem_cons_self _ _
        · rcases List.mem_cons.mp he with rfl | he
          · exact absurd hv hbv
          · exact List.mem_cons_of_mem a he
      have := ih hrec (fun e2 he2 => hmask e2 (List.mem_cons_of_mem b he2))
        (fun e2 he2 => hsort1 e2 (List.mem_cons_of_mem b he2)) hpairtl hcov2 q
        ⟨e, hfeed, hv, hacc⟩
      refine okU_mono ?_ this
      intro x hx
      simp only [List.mem_append, List.mem_cons] at hx ⊢
      tauto

/-- Positional preservation of masks: if two lists agree on their
`(prefix, mask)` images, uniform masks transfer between them. -/
theorem mask_of_map_eq {l1 l2 : List Entry}
    (h : l1.map (fun e => (e.pfx, e.mask)) = l2.map (fun e => (e.pfx, e.mask)))
    {M : Nat} (hm : ∀ e ∈ l2, e.mask = M) : ∀ e ∈ l1, e.mask = M := by
  intro e he
  have h2 : (e.pfx, e.mask) ∈ l2.map (fun e => (e.pfx, e.mask)) := by
    rw [← h]
    exact List.mem_map_of_mem _ he
  obtain ⟨x, hx, hxe⟩ := List.mem_map.mp h2
  have h3 : x.mask = e.mask := congrArg Prod.snd hxe
  rw [← h3]
  exact hm x hx

/-- Positional preservation of prefixes keeps the list weakly sorted by
prefix. -/
theorem pairwise_pfx_of_map_eq {l1 l2 : List Entry}
    (h : l1.map (fun e => (e.pfx, e.mask)) = l2.map (fun e => (e.pfx, e.mask)))
    (hp : l2.Pairwise (fun x y => pfxLe x.pfx y.pfx)) :
    l1.Pairwise (fun x y => pfxLe x.pfx y.pfx) := by
  have h2 : l1.map (fun e => e.pfx) = l2.map (fun e => e.pfx) := by
    have h3 := congrArg (List.map Prod.fst) h
    simpa [List.map_map, Function.comp] using h3
  have hp2 : (l2.map (fun e => e.pfx)).Pairwise pfxLe := List.pairwise_map.mpr (by exact hp)
  have hp1 : (l1.map (fun e => e.pfx)).Pairwise pfxLe := by
    rw [h2]
    exact hp2
  exact List.pairwise_map.mp hp1

/-- Structural facts about a full scan pass at fixed fuel: the rewritten
list keeps its prefixes and masks positionally, every promoted entry sits
one level up, and window invariants survive. -/
theorem scanAF_facts : ∀ {f : Nat} {l l2 nx : List Entry} {ch : Bool} {M : Nat},
    scanAF f l = .ok (l2, nx, ch) → (∀ e ∈ l, WInv e) → (∀ e ∈ l, e.mask = M) →
    l2.map (fun e => (e.pfx, e.mask)) = l.map (fun e => (e.pfx, e.mask)) ∧
    (∀ e ∈ nx, e.mask + 1 = M) ∧
    (∀ e ∈ l2, WInv e) ∧ (∀ e ∈ nx, WInv e) := by
  intro f
  induction f with
  | zero =>
    intro l l2 nx ch M h hw hm
    rcases l with _ | ⟨a, _ | ⟨b, rest⟩⟩
    · simp only [scanAF, Res.pure_eq_ok, Res.ok.injEq, Prod.mk.injEq] at h
      obtain ⟨h1, h2, -⟩ := h
      subst h1; subst h2
      exact ⟨rfl, by simp, by simp, by simp⟩
    · simp only [scanAF, Res.pure_eq_ok, Res.ok.injEq, Prod.mk.injEq] at h
      obtain ⟨h1, h2, -⟩ := h
      subst h1; subst h2
      exact ⟨rfl, by simp, hw, by simp⟩
    · rw [show scanAF 0 (a :: b :: rest) = Res.fuel from rfl] at h
      exact Res.noConfusion h
  | succ f ih =>
    intro l l2 nx ch M h hw hm
    rcases l with _ | ⟨a, _ | ⟨b, rest⟩⟩
    · simp only [scanAF, Res.pure_eq_ok, Res.ok.injEq, Prod.mk.injEq] at h
      obtain ⟨h1, h2, -⟩ := h
      subst h1; subst h2
      exact ⟨rfl, by simp, by simp, by simp⟩
    · simp only [scanAF, Res.pure_eq_ok, Res.ok.injEq, Prod.mk.injEq] at h
      obtain ⟨h1, h2, -⟩ := h
      subst h1; subst h2
      exact ⟨rfl, by simp, hw, by simp⟩
    · rw [scanAF] at h
      split at h
      · rename_i hav
        rw [Res.bind_eq_ok] at h
        obtain ⟨⟨a2, rest2, nx1, ch1⟩, hsb, h⟩ := h
        rw [Res.bind_eq_ok] at h
        obtain ⟨⟨rest3, nx2, ch2⟩, hsa, h⟩ := h
        simp only [Res.pure_eq_ok, Res.ok.injEq, Prod.mk.injEq] at h
        obtain ⟨h1, h2, -⟩ := h
        subst h1; subst h2
        have hwa : WInv a := hw a (List.mem_cons_self _ _)
        have hwtail : ∀ e ∈ b :: rest, WInv e := fun e he => hw e (List.mem_cons_of_mem a he)
        obtain ⟨hp1, hp2, hp3, hp4, hp5, hp6, hp7, hp8⟩ := scanB_facts hsb hwa hwtail
        have hm2 : ∀ e ∈ rest2, e.mask = M :=
          mask_of_map_eq hp4 (fun e he => hm e (List.mem_cons_of_mem a he))
        obtain ⟨hq1, hq2, hq3, hq4⟩ := ih hsa hp7 hm2
        refine ⟨?_, ?_, ?_, ?_⟩
        · simp only [List.map_cons]
          rw [hp1, hp2, hq1, hp4]
          simp only [List.map_cons]
        · intro e he
          rcases List.mem_append.mp he with he | he
          · have h5 := hp5 e he
            rw [hm a (List.mem_cons_self _ _)] at h5
            exact h5
          · exact hq2 e he
        · intro e he
          rcases List.mem_cons.mp he with heq | he
          · rw [heq]
            exact hp6
          · exact hq3 e he
        · intro e he
          rcases List.mem_append.mp he with he | he
          · exact hp8 e he
          · exact hq4 e he
      · rename_i hav
        rw [Res.bind_eq_ok] at h
        obtain ⟨⟨rest2, nx1, ch1⟩, hsa, h⟩ := h
        simp only [Res.pure_eq_ok, Res.ok.injEq, Prod.mk.injEq] at h
        obtain ⟨h1, h2, -⟩ := h
        subst h1; subst h2
        have hwtail : ∀ e ∈ b :: rest, WInv e := fun e he => hw e (List.mem_cons_of_mem a he)
        have hmtail : ∀ e ∈ b :: rest, e.mask = M := fun e he => hm e (List.mem_cons_of_mem a he)
        obtain ⟨hq1, hq2, hq3, hq4⟩ := ih hsa hwtail hmtail
        refine ⟨?_, hq2, ?_, hq4⟩
        · simp only [List.map_cons]
          rw [hq1]
          simp only [List.map_cons]
        · intro e he
          rcases List.mem_cons.mp he with heq | he
          · rw [heq]
            exact hw a (List.mem_cons_self _ _)
          · exact hq3 e he

/-- Soundness of a full pass: whatever the rewritten list or the promoted
entries accept was accepted before the pass. -/
theorem scanAF_sub : ∀ {f : Nat} {l l2 nx : List Entry} {ch : Bool} {M : Nat},
    scanAF f l = .ok (l2, nx, ch) → (∀ e ∈ l, WInv e) → (∀ e ∈ l, e.mask = M) →
    ∀ q, okU (l2 ++ nx) q → okU l q := by
  intro f
  induction f with
  | zero =>
    intro l l2 nx ch M h hw hm q hok
    rcases l with _ | ⟨a, _ | ⟨b, rest⟩⟩
    · simp only [scanAF, Res.pure_eq_ok, Res.ok.injEq, Prod.mk.injEq] at h
      obtain ⟨h1, h2, -⟩ := h
      subst h1; subst h2
      simpa using hok
    · simp only [scanAF, Res.pure_eq_ok, Res.ok.injEq, Prod.mk.injEq] at h
      obtain ⟨h1, h2, -⟩ := h
      subst h1; subst h2
      simpa using hok
    · rw [show scanAF 0 (a :: b :: rest) = Res.fuel from rfl] at h
      exact Res.noConfusion h
  | succ f ih =>
    intro l l2 nx ch M h hw hm q hok
    rcases l with _ | ⟨a, _ | ⟨b, rest⟩⟩
    · simp only [scanAF, Res.pure_eq_ok, Res.ok.injEq, Prod.mk.injEq] at h
      obtain ⟨h1, h2, -⟩ := h
      subst h1; subst h2
      simpa using hok
    · simp only [scanAF, Res.pure_eq_ok, Res.ok.injEq, Prod.mk.injEq] at h
      obtain ⟨h1, h2, -⟩ := h
      subst h1; subst h2
      simpa using hok
    · rw [scanAF] at h
      split at h
      · rename_i hav
        rw [Res.bind_eq_ok] at h
        obtain ⟨⟨a2, rest2, nx1, ch1⟩, hsb, h⟩ := h
        rw [Res.bind_eq_ok] at h
        obtain ⟨⟨rest3, nx2, ch2⟩, hsa, h⟩ := h
        simp only [Res.pure_eq_ok, Res.ok.injEq, Prod.mk.injEq] at h
        obtain ⟨h1, h2, -⟩ := h
        subst h1; subst h2
        have hwa : WInv a := hw a (List.mem_cons_self _ _)
        have hwtail : ∀ e ∈ b :: rest, WInv e := fun e he => hw e (List.mem_cons_of_mem a he)
        have hmtail : ∀ e ∈ b :: rest, e.mask = a.mask := by
          intro e he
          rw [hm a (List.mem_cons_self _ _)]
          exact hm e (List.mem_cons_of_mem a he)
        obtain ⟨hp1, hp2, hp3, hp4, hp5, hp6, hp7, hp8⟩ := scanB_facts hsb hwa hwtail
        have hm2 : ∀ e ∈ rest2, e.mask = M :=
          mask_of_map_eq hp4 (fun e he => hm e (List.mem_cons_of_mem a he))
        rw [List.cons_append] at hok
        have hmid : okU (a2 :: rest2 ++ nx1) q := by
          obtain ⟨e, he, hv, ha⟩ := hok
          rcases List.mem_cons.mp he with heq | he
          · refine ⟨e, ?_, hv, ha⟩
            rw [heq]
            exact List.mem_cons_self _ _
          · rcases List.mem_append.mp he with he | he
            · have h6 := ih hsa hp7 hm2 q ⟨e, List.mem_append_left _ he, hv, ha⟩
              exact okU_mono (fun x hx => List.mem_cons_of_mem _ (List.mem_append_left _ hx)) h6
            · rcases List.mem_append.mp he with he | he
              · exact ⟨e, List.mem_cons_of_mem _ (List.mem_append_right _ he), hv, ha⟩
              · have h6 := ih hsa hp7 hm2 q ⟨e, List.mem_append_right _ he, hv, ha⟩
                exact okU_mono
                  (fun x hx => List.mem_cons_of_mem _ (List.mem_append_left _ hx)) h6
        exact scanB_sub hsb hmtail hwa q hmid
      · rename_i hav
        rw [Res.bind_eq_ok] at h
        obtain ⟨⟨rest2, nx1, ch1⟩, hsa, h⟩ := h
        simp only [Res.pure_eq_ok, Res.ok.injEq, Prod.mk.injEq] at h
        obtain ⟨h1, h2, -⟩ := h
        subst h1; subst h2
        have hwtail : ∀ e ∈ b :: rest, WInv e := fun e he => hw e (List.mem_cons_of_mem a he)
        have hmtail : ∀ e ∈ b :: rest, e.mask = M := fun e he => hm e (List.mem_cons_of_mem a he)
        rw [List.cons_append] at hok
        obtain ⟨e, he, hv, ha⟩ := hok
        rcases List.mem_cons.mp he with heq | he
        · exact absurd (heq ▸ hv) hav
        · have h6 := ih hsa hwtail hmtail q ⟨e, he, hv, ha⟩
          exact okU_mono (fun x hx => List.mem_cons_of_mem a hx) h6

/-- Completeness of a full pass: whatever was accepted before the pass is
accepted by the rewritten list together with the promoted entries. -/
theorem scanAF_sup : ∀ {f : Nat} {l l2 nx : List Entry} {ch : Bool} {M : Nat},
    scanAF f l = .ok (l2, nx, ch) → (∀ e ∈ l, WInv e) → (∀ e ∈ l, e.mask = M) →
    l.Pairwise (fun x y => pfxLe x.pfx y.pfx) →
    ∀ q, okU l q → okU (l2 ++ nx) q := by
  intro f
  induction f with
  | zero =>
    intro l l2 nx ch M h hw hm hpr q hok
    rcases l with _ | ⟨a, _ | ⟨b, rest⟩⟩
    · simp only [scanAF, Res.pure_eq_ok, Res.ok.injEq, Prod.mk.injEq] at h
      obtain ⟨h1, h2, -⟩ := h
      subst h1; subst h2
      simpa using hok
    · simp only [scanAF, Res.pure_eq_ok, Res.ok.injEq, Prod.mk.injEq] at h
      obtain ⟨h1, h2, -⟩ := h
      subst h1; subst h2
      simpa using hok
    · rw [show scanAF 0 (a :: b :: rest) = Res.fuel from rfl] at h
      exact Res.noConfusion h
  | succ f ih =>
    intro l l2 nx ch M h hw hm hpr q hok
    rcases l with _ | ⟨a, _ | ⟨b, rest⟩⟩
    · simp only [scanAF, Res.pure_eq_ok, Res.ok.injEq, Prod.mk.injEq] at h
      obtain ⟨h1, h2, -⟩ := h
      subst h1; subst h2
      simpa using hok
    · simp only [scanAF, Res.pure_eq_ok, Res.ok.injEq, Prod.mk.injEq] at h
      obtain ⟨h1, h2, -⟩ := h
      subst h1; subst h2
      simpa using hok
    · rw [scanAF] at h
      split at h
      · rename_i hav
        rw [Res.bind_eq_ok] at h
        obtain ⟨⟨a2, rest2, nx1, ch1⟩, hsb, h⟩ := h
        rw [Res.bind_eq_ok] at h
        obtain ⟨⟨rest3, nx2, ch2⟩, hsa, h⟩ := h
        simp only [Res.pure_eq_ok, Res.ok.injEq, Prod.mk.injEq] at h
        obtain ⟨h1, h2, -⟩ := h
        subst h1; subst h2
        have hwa : WInv a := hw a (List.mem_cons_self _ _)
        have hwtail : ∀ e ∈ b :: rest, WInv e := fun e he => hw e (List.mem_cons_of_mem a he)
        have hmtail : ∀ e ∈ b :: rest, e.mask = a.mask := by
          intro e he
          rw [hm a (List.mem_cons_self _ _)]
          exact hm e (List.mem_cons_of_mem a he)
        have hsort1 : ∀ e ∈ b :: rest, pfxLe a.pfx e.pfx := by
          intro e he
          exact List.rel_of_pairwise_cons hpr he
        have hprt : (b :: rest).Pairwise (fun x y => pfxLe x.pfx y.pfx) :=
          (List.pairwise_cons.mp hpr).2
        have hcov : a.valid = false →
            (∀ e ∈ b :: rest, e.valid = true → e.pfx ≠ a.pfx) ∧
            (∀ q2, acceptsB { a with mask := a.mask - 1 } q2 = true →
              okU ([] : List Entry) q2) := by
          intro hfalse
          rw [hav] at hfalse
          exact absurd hfalse (by simp)
        have hmid := scanB_sup hsb hmtail hsort1 hprt hcov q hok
        rw [List.append_nil] at hmid
        obtain ⟨hp1, hp2, hp3, hp4, hp5, hp6, hp7, hp8⟩ := scanB_facts hsb hwa hwtail
        have hm2 : ∀ e ∈ rest2, e.mask = M :=
          mask_of_map_eq hp4 (fun e he => hm e (List.mem_cons_of_mem a he))
        have hpr2 : rest2.Pairwise (fun x y => pfxLe x.pfx y.pfx) :=
          pairwise_pfx_of_map_eq hp4 hprt
        rw [List.cons_append]
        obtain ⟨e, he, hv, ha⟩ := hmid
        rcases List.mem_cons.mp he with heq | he
        · refine ⟨e, ?_, hv, ha⟩
          rw [heq]
          exact List.mem_cons_self _ _
        · rcases List.mem_append.mp he with he | he
          · have h6 := ih hsa hp7 hm2 hpr2 q ⟨e, he, hv, ha⟩
            refine okU_mono ?_ h6
            intro x hx
            rcases List.mem_append.mp hx with hx | hx
            · exact List.mem_cons_of_mem _ (List.mem_append_left _ hx)
            · exact List.mem_cons_of_mem _
                (List.mem_append_right _ (List.mem_append_right _ hx))
          · exact ⟨e, List.mem_cons_of_mem _
              (List.mem_append_right _ (List.mem_append_left _ he)), hv, ha⟩
      · rename_i hav
        rw [Res.bind_eq_ok] at h
        obtain ⟨⟨rest2, nx1, ch1⟩, hsa, h⟩ := h
        simp only [Res.pure_eq_ok, Res.ok.injEq, Prod.mk.injEq] at h
        obtain ⟨h1, h2, -⟩ := h
        subst h1; subst h2
        have hwtail : ∀ e ∈ b :: rest, WInv e := fun e he => hw e (List.mem_cons_of_mem a he)
        have hmtail : ∀ e ∈ b :: rest, e.mask = M := fun e he => hm e (List.mem_cons_of_mem a he)
        have hprt : (b :: rest).Pairwise (fun x y => pfxLe x.pfx y.pfx) :=
          (List.pairwise_cons.mp hpr).2
        obtain ⟨e, he, hv, ha⟩ := hok
        rcases List.mem_cons.mp he with heq | he
        · exact absurd (heq ▸ hv) hav
        · have h6 := ih hsa hwtail hmtail hprt q ⟨e, he, hv, ha⟩
          rw [List.cons_append]
          exact okU_mono (fun x hx => List.mem_cons_of_mem a hx) h6

/-- Sorting with `entryRel` is a permutation, so membership is unchanged. -/
theorem sortEntries_mem {l : List Entry} {e : Entry} : e ∈ sortEntries l ↔ e ∈ l :=
  (List.perm_insertionSort entryRel l).mem_iff

/-- The sorted list is weakly sorted by prefix. -/
theorem sortEntries_pairwise (l : List Entry) :
    (sortEntries l).Pairwise (fun x y => pfxLe x.pfx y.pfx) := by
  have hs : List.Sorted entryRel (sortEntries l) := List.sorted_insertionSort entryRel l
  exact List.Pairwise.imp (fun h => entryRel_pfxLe h) hs

/-- Structural facts about one `sort + scan` pass of `level_up`. -/
theorem onePass_facts {ths ths2 nx : List Entry} {ch : Bool} {M : Nat}
    (h : onePass ths = .ok (ths2, nx, ch)) (hw : ∀ e ∈ ths, WInv e)
    (hm : ∀ e ∈ ths, e.mask = M) :
    (∀ e ∈ ths2, e.mask = M) ∧ (∀ e ∈ nx, e.mask + 1 = M) ∧
    (∀ e ∈ ths2, WInv e) ∧ (∀ e ∈ nx, WInv e) := by
  rw [onePass, scanA] at h
  have hw2 : ∀ e ∈ sortEntries ths, WInv e := fun e he => hw e (sortEntries_mem.mp he)
  have hm2 : ∀ e ∈ sortEntries ths, e.mask = M := fun e he => hm e (sortEntries_mem.mp he)
  obtain ⟨h1, h2, h3, h4⟩ := scanAF_facts h hw2 hm2
  exact ⟨mask_of_map_eq h1 hm2, h2, h3, h4⟩

/-- Soundness of one pass of `level_up`. -/
theorem onePass_sub {ths ths2 nx : List Entry} {ch : Bool} {M : Nat}
    (h : onePass ths = .ok (ths2, nx, ch)) (hw : ∀ e ∈ ths, WInv e)
    (hm : ∀ e ∈ ths, e.mask = M) :
    ∀ q, okU (ths2 ++ nx) q → okU ths q := by
  rw [onePass, scanA] at h
  have hw2 : ∀ e ∈ sortEntries ths, WInv e := fun e he => hw e (sortEntries_mem.mp he)
  have hm2 : ∀ e ∈ sortEntries ths, e.mask = M := fun e he => hm e (sortEntries_mem.mp he)
  intro q hok
  have h6 := scanAF_sub h hw2 hm2 q hok
  exact okU_mono (fun e he => sortEntries_mem.mp he) h6

/-- Completeness of one pass of `level_up`. -/
theorem onePass_sup {ths ths2 nx : List Entry} {ch : Bool} {M : Nat}
    (h : onePass ths = .ok (ths2, nx, ch)) (hw : ∀ e ∈ ths, WInv e)
    (hm : ∀ e ∈ ths, e.mask = M) :
    ∀ q, okU ths q → okU (ths2 ++ nx) q := by
  rw [onePass, scanA] at h
  have hw2 : ∀ e ∈ sortEntries ths, WInv e := fun e he => hw e (sortEntries_mem.mp he)
  have hm2 : ∀ e ∈ sortEntries ths, e.mask = M := fun e he => hm e (sortEntries_mem.mp he)
  intro q hok
  exact scanAF_sup h hw2 hm2 (sortEntries_pairwise ths) q
    (okU_mono (fun e he => sortEntries_mem.mpr he) hok)

/-- Structural facts about the `while did_change` loop of `level_up`. -/
theorem levelUpLoop_facts : ∀ {f : Nat} {ths nxt T N : List Entry} {M : Nat},
    levelUpLoop f ths nxt = .ok (T, N) → (∀ e ∈ ths, WInv e) → (∀ e ∈ ths, e.mask = M) →
    (∀ e ∈ T, e.mask = M) ∧ (∀ e ∈ T, WInv e) ∧
    (∀ e ∈ N, e ∈ nxt ∨ (e.mask + 1 = M ∧ WInv e)) := by
  intro f
  induction f with
  | zero =>
    intro ths nxt T N M h
    rw [show levelUpLoop 0 ths nxt = Res.fuel from rfl] at h
    exact Res.noConfusion h
  | succ f ih =>
    intro ths nxt T N M h hw hm
    rw [levelUpLoop] at h
    rw [Res.bind_eq_ok] at h
    obtain ⟨⟨ths2, nx, ch⟩, hop, h⟩ := h
    obtain ⟨hm2, hnx, hw2, hwn⟩ := onePass_facts hop hw hm
    dsimp only at h
    split at h
    · obtain ⟨k1, k2, k3⟩ := ih h hw2 hm2
      refine ⟨k1, k2, ?_⟩
      intro e he
      rcases k3 e he with he2 | he2
      · rcases List.mem_append.mp he2 with he3 | he3
        · exact Or.inl he3
        · exact Or.inr ⟨hnx e he3, hwn e he3⟩
      · exact Or.inr he2
    · simp only [Res.pure_eq_ok, Res.ok.injEq, Prod.mk.injEq] at h
      obtain ⟨h1, h2⟩ := h
      subst h1; subst h2
      refine ⟨hm2, hw2, ?_⟩
      intro e he
      rcases List.mem_append.mp he with he | he
      · exact Or.inl he
      · exact Or.inr ⟨hnx e he, hwn e he⟩

/-- Coverage equivalence across the `while did_change` loop of `level_up`:
the final working list and `next` accumulator accept together exactly what
the initial pair accepted. -/
theorem levelUpLoop_cov : ∀ {f : Nat} {ths nxt T N : List Entry} {M : Nat},
    levelUpLoop f ths nxt = .ok (T, N) → (∀ e ∈ ths, WInv e) → (∀ e ∈ ths, e.mask = M) →
    ∀ q, (okU T q ∨ okU N q ↔ okU ths q ∨ okU nxt q) := by
  intro f
  induction f with
  | zero =>
    intro ths nxt T N M h
    rw [show levelUpLoop 0 ths nxt = Res.fuel from rfl] at h
    exact Res.noConfusion h
  | succ f ih =>
    intro ths nxt T N M h hw hm q
    rw [levelUpLoop] at h
    rw [Res.bind_eq_ok] at h
    obtain ⟨⟨ths2, nx, ch⟩, hop, h⟩ := h
    dsimp only at h
    obtain ⟨hm2, hnx, hw2, hwn⟩ := onePass_facts hop hw hm
    have hsub := onePass_sub hop hw hm
    have hsup := onePass_sup hop hw hm
    have key : ∀ q2, okU ths2 q2 ∨ okU (nxt ++ nx) q2 ↔ okU ths q2 ∨ okU nxt q2 := by
      intro q2
      constructor
      · rintro (h1 | h1)
        · exact Or.inl (hsub q2 (okU_append.mpr (Or.inl h1)))
        · rcases okU_append.mp h1 with h2 | h2
          · exact Or.inr h2
          · exact Or.inl (hsub q2 (okU_append.mpr (Or.inr h2)))
      · rintro (h1 | h1)
        · rcases okU_append.mp (hsup q2 h1) with h2 | h2
          · exact Or.inl h2
          · exact Or.inr (okU_append.mpr (Or.inr h2))
        · exact Or.inr (okU_append.mpr (Or.inl h1))
    split at h
    · exact (ih h hw2 hm2 q).trans (key q)
    · simp only [Res.pure_eq_ok, Res.ok.injEq, Prod.mk.injEq] at h
      obtain ⟨h1, h2⟩ := h
      subst h1; subst h2
      exact key q

/-- Reading a bucket vector through `set` at the written index. -/
theorem getD_set_self {α : Type} (l : List α) (i : Nat) (x d : α) (h : i < l.length) :
    (l.set i x).getD i d = x := by
  simp [List.getD_eq_getElem?_getD, List.getElem?_set_self, h]

/-- Reading a bucket vector through `set` at another index. -/
theorem getD_set_ne {α : Type} (l : List α) (i j : Nat) (x d : α) (h : j ≠ i) :
    (l.set i x).getD j d = l.getD j d := by
  simp [List.getD_eq_getElem?_getD, List.getElem?_set_ne h.symm]

/-- Every slot of the empty bucket vector is the empty list. -/
theorem getD_replicate_nil (i : Nat) :
    (List.replicate 129 ([] : List Entry)).getD i [] = [] := by
  rcases Nat.lt_or_ge i 129 with hi | hi
  · rw [List.getD_eq_getElem?_getD, List.getElem?_replicate]
    simp [hi]
  · rw [List.getD_eq_getElem?_getD, List.getElem?_eq_none (by simpa using hi)]
    rfl

/-- The bucket fold, relative to an arbitrary 129-slot accumulator: it
succeeds only if every pushed mask is in range, and appends each entry to
the slot of its mask in arrival order. -/
theorem buckets_spec : ∀ {es : List Entry} {acc levels : List (List Entry)},
    es.foldlM pushLevel acc = .ok levels → acc.length = 129 →
    levels.length = 129 ∧ (∀ e ∈ es, e.mask < 129) ∧
    ∀ i : Nat, levels.getD i [] = acc.getD i [] ++ es.filter (fun e => decide (e.mask = i)) := by
  intro es
  induction es with
  | nil =>
    intro acc levels h hl
    simp only [List.foldlM_nil, Res.pure_eq_ok, Res.ok.injEq] at h
    subst h
    exact ⟨hl, by simp, fun i => by simp⟩
  | cons e es ih =>
    intro acc levels h hl
    rw [List.foldlM_cons] at h
    rw [Res.bind_eq_ok] at h
    obtain ⟨acc2, hpush, h⟩ := h
    rw [pushLevel] at hpush
    split at hpush
    · rename_i hlt
      simp only [Res.ok.injEq] at hpush
      subst hpush
      have hl2 : (acc.set e.mask (acc.getD e.mask [] ++ [e])).length = 129 := by
        rw [List.length_set]
        exact hl
      obtain ⟨k1, k2, k3⟩ := ih h hl2
      refine ⟨k1, ?_, ?_⟩
      · intro x hx
        rcases List.mem_cons.mp hx with heq | hx
        · rw [heq]
          rw [hl] at hlt
          exact hlt
        · exact k2 x hx
      · intro i
        rw [k3 i]
        by_cases hi : i = e.mask
        · subst hi
          rw [getD_set_self _ _ _ _ hlt]
          rw [List.filter_cons, if_pos (by simp)]
          rw [List.append_assoc]
          rfl
        · rw [getD_set_ne _ _ _ _ _ hi]
          rw [List.filter_cons, if_neg (by simp; exact fun hh => hi hh.symm)]
    · exact Res.noConfusion hpush

/-- The bucket vector of `aggregate`: slot `i` holds exactly the entries of
mask `i`, in input order. -/
theorem buckets_ok {es : List Entry} {levels : List (List Entry)}
    (h : buckets es = .ok levels) :
    levels.length = 129 ∧
    ∀ i : Nat, levels.getD i [] = es.filter (fun e => decide (e.mask = i)) := by
  rw [buckets] at h
  obtain ⟨k1, k2, k3⟩ := buckets_spec h (by simp)
  refine ⟨k1, fun i => ?_⟩
  rw [k3 i, getD_replicate_nil]
  rfl

/-- Bucketing preserves coverage. -/
theorem okLevels_buckets {es : List Entry} {levels : List (List Entry)}
    (h : buckets es = .ok levels) : ∀ q, okLevels levels q ↔ okU es q := by
  obtain ⟨-, hget⟩ := buckets_ok h
  intro q
  constructor
  · rintro ⟨i, e, he, hv, ha⟩
    rw [hget i] at he
    exact ⟨e, (List.mem_filter.mp he).1, hv, ha⟩
  · rintro ⟨e, he, hv, ha⟩
    refine ⟨e.mask, e, ?_, hv, ha⟩
    rw [hget e.mask]
    exact List.mem_filter.mpr ⟨he, by simp⟩

/-- Bucketing establishes the per-level invariant. -/
theorem LInv_buckets {es : List Entry} {levels : List (List Entry)}
    (h : buckets es = .ok levels) (hw : ∀ e ∈ es, WInv e) : LInv levels := by
  obtain ⟨-, hget⟩ := buckets_ok h
  intro i e he
  rw [hget i] at he
  obtain ⟨he2, hf⟩ := List.mem_filter.mp he
  exact ⟨by simpa using hf, hw e he2⟩

/-- Everything the final collection loop returns is a valid entry. -/
theorem collectOut_valid {levels : List (List Entry)} {e : Entry}
    (he : e ∈ collectOut levels) : e.valid = true := by
  rw [collectOut, List.mem_flatten] at he
  obtain ⟨es, hes, hee⟩ := he
  rw [List.mem_map] at hes
  obtain ⟨es2, -, heq⟩ := hes
  rw [← heq] at hee
  exact (List.mem_filter.mp hee).2

/-- The final collection loop preserves coverage: dropping invalidated
entries loses nothing, because coverage is defined through valid entries. -/
theorem okU_collectOut {levels : List (List Entry)} {q : Prefix} :
    okU (collectOut levels) q ↔ okLevels levels q := by
  constructor
  · rintro ⟨e, he, hv, ha⟩
    rw [collectOut, List.mem_flatten] at he
    obtain ⟨es, hes, hee⟩ := he
    rw [List.mem_map] at hes
    obtain ⟨es2, hes2, heq⟩ := hes
    rw [← heq] at hee
    rw [List.mem_reverse] at hes2
    obtain ⟨i, hi, hgi⟩ := List.mem_iff_getElem.mp hes2
    refine ⟨i, e, ?_, hv, ha⟩
    rw [List.getD_eq_getElem _ _ hi, hgi]
    exact (List.mem_filter.mp hee).1
  · rintro ⟨i, e, he, hv, ha⟩
    have hi : i < levels.length := by
      by_contra hge
      rw [List.getD_eq_getElem?_getD, List.getElem?_eq_none (by omega)] at he
      exact absurd he (List.not_mem_nil e)
    refine ⟨e, ?_, hv, ha⟩
    rw [collectOut, List.mem_flatten]
    refine ⟨(levels.getD i []).filter (fun e => e.valid), ?_, ?_⟩
    · rw [List.mem_map]
      refine ⟨levels.getD i [], ?_, rfl⟩
      rw [List.mem_reverse, List.getD_eq_getElem _ _ hi]
      exact List.getElem_mem hi
    · exact List.mem_filter.mpr ⟨he, hv⟩

/-- The level-processing loop of `aggregate`: it keeps the vector length and
the per-level invariant, and preserves coverage. -/
theorem processLevels_ok : ∀ {c : Nat} {levels levels2 : List (List Entry)},
    processLevels c levels = .ok levels2 → levels.length = 129 → c ≤ 128 → LInv levels →
    levels2.length = 129 ∧ LInv levels2 ∧
    ∀ q, (okLevels levels2 q ↔ okLevels levels q) := by
  intro c
  induction c with
  | zero =>
    intro levels levels2 h hl hc hinv
    simp only [processLevels, Res.ok.injEq] at h
    subst h
    exact ⟨hl, hinv, fun q => Iff.rfl⟩
  | succ c ih =>
    intro levels levels2 h hl hc hinv
    rw [processLevels] at h
    rw [Res.bind_eq_ok] at h
    obtain ⟨⟨t, n⟩, hlu, h⟩ := h
    dsimp only at h
    have hthsw : ∀ e ∈ levels.getD (c + 1) [], WInv e := fun e he => (hinv (c + 1) e he).2
    have hthsm : ∀ e ∈ levels.getD (c + 1) [], e.mask = c + 1 :=
      fun e he => (hinv (c + 1) e he).1
    rw [levelUp] at hlu
    obtain ⟨hm2, hw2, hn⟩ := levelUpLoop_facts hlu hthsw hthsm
    have hcov := levelUpLoop_cov hlu hthsw hthsm
    have hlen : ((levels.set (c + 1) t).set c n).length = 129 := by
      rw [List.length_set, List.length_set]
      exact hl
    have hget : ∀ i : Nat, ((levels.set (c + 1) t).set c n).getD i [] =
        if i = c then n else if i = c + 1 then t else levels.getD i [] := by
      intro i
      by_cases h1 : i = c
      · subst h1
        rw [if_pos rfl]
        rw [getD_set_self]
        rw [List.length_set, hl]
        omega
      · rw [if_neg h1, getD_set_ne _ _ _ _ _ h1]
        by_cases h2 : i = c + 1
        · subst h2
          rw [if_pos rfl]
          rw [getD_set_self]
          rw [hl]
          omega
        · rw [if_neg h2, getD_set_ne _ _ _ _ _ h2]
    have hinv2 : LInv ((levels.set (c + 1) t).set c n) := by
      intro i e he
      rw [hget i] at he
      split at he
      · rename_i h1
        rw [h1]
        rcases hn e he with he2 | he2
        · exact hinv c e he2
        · exact ⟨by omega, he2.2⟩
      · split at he
        · rename_i h1 h2
          rw [h2]
          exact ⟨hm2 e he, hw2 e he⟩
        · exact hinv i e he
    have hcovstep : ∀ q, okLevels ((levels.set (c + 1) t).set c n) q ↔ okLevels levels q := by
      intro q
      constructor
      · rintro ⟨i, hi⟩
        rw [hget i] at hi
        split at hi
        · rcases (hcov q).mp (Or.inr hi) with h2 | h2
          · exact ⟨c + 1, h2⟩
          · exact ⟨c, h2⟩
        · split at hi
          · rcases (hcov q).mp (Or.inl hi) with h2 | h2
            · exact ⟨c + 1, h2⟩
            · exact ⟨c, h2⟩
          · exact ⟨i, hi⟩
      · rintro ⟨i, hi⟩
        by_cases h1 : i = c + 1
        · subst h1
          rcases (hcov q).mpr (Or.inl hi) with h2 | h2
          · refine ⟨c + 1, ?_⟩
            rw [hget (c + 1), if_neg (by omega), if_pos rfl]
            exact h2
          · refine ⟨c, ?_⟩
            rw [hget c, if_pos rfl]
            exact h2
        · by_cases h2 : i = c
          · rw [h2] at hi
            rcases (hcov q).mpr (Or.inr hi) with h3 | h3
            · refine ⟨c + 1, ?_⟩
              rw [hget (c + 1), if_neg (by omega), if_pos rfl]
              exact h3
            · refine ⟨c, ?_⟩
              rw [hget c, if_pos rfl]
              exact h3
          · refine ⟨i, ?_⟩
            rw [hget i, if_neg h2, if_neg h1]
            exact hi
    obtain ⟨k1, k2, k3⟩ := ih h hlen (by omega) hinv2
    exact ⟨k1, k2, fun q => (k3 q).trans (hcovstep q)⟩

/-- A scan that reports no change leaves everything untouched. -/
theorem scanB_nochange : ∀ {a : Entry} {bs : List Entry} {a2 : Entry}
    {bs2 nx : List Entry},
    scanB a bs = .ok (a2, bs2, nx, false) → a2 = a ∧ bs2 = bs ∧ nx = [] := by
  intro a bs
  induction bs generalizing a with
  | nil =>
    intro a2 bs2 nx h
    simp only [scanB, Res.pure_eq_ok, Res.ok.injEq, Prod.mk.injEq] at h
    exact ⟨h.1.symm, h.2.1.symm, h.2.2.1.symm⟩
  | cons b bs ih =>
    intro a2 bs2 nx h
    rw [scanB] at h
    split at h
    · rw [Res.bind_eq_ok] at h
      obtain ⟨clu, hclu, h⟩ := h
      split at h
      · rw [Res.bind_eq_ok] at h
        obtain ⟨m, hm, h⟩ := h
        rw [Res.bind_eq_ok] at h
        obtain ⟨⟨a3, bs3, nx3, ch3⟩, hrec, h⟩ := h
        simp only [Res.pure_eq_ok, Res.ok.injEq, Prod.mk.injEq] at h
        exact absurd h.2.2.2 (by simp)
      · rw [Res.bind_eq_ok] at h
        obtain ⟨r2, hr2, h⟩ := h
        split at h
        · rw [Res.bind_eq_ok] at h
          obtain ⟨⟨a3, bs3, nx3, ch3⟩, hrec, h⟩ := h
          simp only [Res.pure_eq_ok, Res.ok.injEq, Prod.mk.injEq] at h
          exact absurd h.2.2.2 (by simp)
        · rw [Res.bind_eq_ok] at h
          obtain ⟨t, ht, h⟩ := h
          split at h
          · rw [Res.bind_eq_ok] at h
            obtain ⟨⟨a3, bs3, nx3, ch3⟩, hrec, h⟩ := h
            simp only [Res.pure_eq_ok, Res.ok.injEq, Prod.mk.injEq] at h
            obtain ⟨h1, h2, h3, h4⟩ := h
            rw [h4] at hrec
            obtain ⟨k1, k2, k3⟩ := ih hrec
            refine ⟨h1 ▸ k1, ?_, h3 ▸ k3⟩
            rw [← h2, k2]
          · simp only [Res.pure_eq_ok, Res.ok.injEq, Prod.mk.injEq] at h
            exact ⟨h.1.symm, h.2.1.symm, h.2.2.1.symm⟩
    · rw [Res.bind_eq_ok] at h
      obtain ⟨⟨a3, bs3, nx3, ch3⟩, hrec, h⟩ := h
      simp only [Res.pure_eq_ok, Res.ok.injEq, Prod.mk.injEq] at h
      obtain ⟨h1, h2, h3, h4⟩ := h
      rw [h4] at hrec
      obtain ⟨k1, k2, k3⟩ := ih hrec
      refine ⟨h1 ▸ k1, ?_, h3 ▸ k3⟩
      rw [← h2, k2]

/-- Dropping the invalidated entries from the tail preserves a no-change
scan: the scan skips invalid entries, so removing them cannot create a
merge. -/
theorem scanB_filter : ∀ {a : Entry} {bs : List Entry},
    scanB a bs = .ok (a, bs, [], false) →
    scanB a (bs.filter (fun e => e.valid)) =
      .ok (a, bs.filter (fun e => e.valid), [], false) := by
  intro a bs
  induction bs generalizing a with
  | nil =>
    intro h
    simp [scanB]
  | cons b bs ih =>
    intro h
    rw [scanB] at h
    split at h
    · rename_i hbv
      rw [Res.bind_eq_ok] at h
      obtain ⟨clu, hclu, h⟩ := h
      split at h
      · rename_i hcluT
        subst hcluT
        rw [Res.bind_eq_ok] at h
        obtain ⟨m, hm, h⟩ := h
        rw [Res.bind_eq_ok] at h
        obtain ⟨⟨a3, bs3, nx3, ch3⟩, hrec, h⟩ := h
        simp only [Res.pure_eq_ok, Res.ok.injEq, Prod.mk.injEq] at h
        exact absurd h.2.2.2 (by simp)
      · rename_i hcluF
        have hcluf : clu = false := by simpa using hcluF
        subst hcluf
        rw [Res.bind_eq_ok] at h
        obtain ⟨r2, hr2, h⟩ := h
        split at h
        · rename_i hr2T
          subst hr2T
          rw [Res.bind_eq_ok] at h
          obtain ⟨⟨a3, bs3, nx3, ch3⟩, hrec, h⟩ := h
          simp only [Res.pure_eq_ok, Res.ok.injEq, Prod.mk.injEq] at h
          exact absurd h.2.2.2 (by simp)
        · rename_i hr2F
          have hr2f : r2 = false := by simpa using hr2F
          subst hr2f
          rw [Res.bind_eq_ok] at h
          obtain ⟨t, ht, h⟩ := h
          split at h
          · rename_i htT
            subst htT
            rw [Res.bind_eq_ok] at h
            obtain ⟨⟨a3, bs3, nx3, ch3⟩, hrec, h⟩ := h
            simp only [Res.pure_eq_ok, Res.ok.injEq, Prod.mk.injEq, List.cons.injEq,
              eq_self_iff_true, true_and] at h
            obtain ⟨h1, h2, h3, h4⟩ := h
            subst h1; subst h2; subst h3; subst h4
            have hih := ih hrec
            simp [List.filter_cons, hbv, scanB, hclu, hr2, ht, hih]
          · rename_i htF
            have htf : t = false := by simpa using htF
            subst htf
            simp [List.filter_cons, hbv, scanB, hclu, hr2, ht]
    · rename_i hbv
      rw [Res.bind_eq_ok] at h
      obtain ⟨⟨a3, bs3, nx3, ch3⟩, hrec, h⟩ := h
      simp only [Res.pure_eq_ok, Res.ok.injEq, Prod.mk.injEq, List.cons.injEq,
        eq_self_iff_true, true_and] at h
      obtain ⟨h1, h2, h3, h4⟩ := h
      subst h1; subst h2; subst h3; subst h4
      have hih := ih hrec
      rw [List.filter_cons, if_neg hbv]
      exact hih

/-- A successful pass had fuel at least `length - 1`. -/
theorem scanAF_min : ∀ {f : Nat} {l : List Entry} {r : List Entry × List Entry × Bool},
    scanAF f l = .ok r → l.length ≤ f + 1 := by
  intro f
  induction f with
  | zero =>
    intro l r h
    rcases l with _ | ⟨a, _ | ⟨b, rest⟩⟩
    · simp
    · simp
    · rw [show scanAF 0 (a :: b :: rest) = Res.fuel from rfl] at h
      exact Res.noConfusion h
  | succ f ih =>
    intro l r h
    rcases l with _ | ⟨a, _ | ⟨b, rest⟩⟩
    · simp
    · simp
    · rw [scanAF] at h
      split at h
      · rw [Res.bind_eq_ok] at h
        obtain ⟨⟨a2, rest2, nx1, ch1⟩, hsb, h⟩ := h
        rw [Res.bind_eq_ok] at h
        obtain ⟨⟨rest3, nx2, ch2⟩, hsa, h⟩ := h
        have h5 : rest2.length = rest.length + 1 := by rw [scanB_length hsb]; simp
        have h6 := ih hsa
        simp only [List.length_cons]
        omega
      · rw [Res.bind_eq_ok] at h
        obtain ⟨⟨rest2, nx1, ch1⟩, hsa, h⟩ := h
        have h6 := ih hsa
        simp only [List.length_cons] at h6 ⊢
        omega

/-- Fuel above the list length never matters. -/
theorem scanAF_fuel : ∀ {f : Nat} {l : List Entry} {r : List Entry × List Entry × Bool},
    scanAF f l = .ok r → ∀ g, l.length ≤ g + 1 → scanAF g l = .ok r := by
  intro f
  induction f with
  | zero =>
    intro l r h g hg
    rcases l with _ | ⟨a, _ | ⟨b, rest⟩⟩
    · rw [scanAF] at h ⊢
      exact h
    · rw [scanAF] at h ⊢
      exact h
    · rw [show scanAF 0 (a :: b :: rest) = Res.fuel from rfl] at h
      exact Res.noConfusion h
  | succ f ih =>
    intro l r h g hg
    rcases l with _ | ⟨a, _ | ⟨b, rest⟩⟩
    · rw [scanAF] at h ⊢
      exact h
    · rw [scanAF] at h ⊢
      exact h
    · simp only [List.length_cons] at hg
      rcases g with _ | g2
      · omega
      · rw [scanAF] at h ⊢
        split at h <;> rename_i hav
        · rw [if_pos hav]
          rw [Res.bind_eq_ok] at h
          obtain ⟨⟨a2, rest2, nx1, ch1⟩, hsb, h⟩ := h
          rw [Res.bind_eq_ok] at h
          obtain ⟨⟨rest3, nx2, ch2⟩, hsa, h⟩ := h
          have h5 : rest2.length = rest.length + 1 := by
            rw [scanB_length hsb]
            simp
          have h6 := ih hsa g2 (by omega)
          simp only [hsb, Res.ok_bind, h6]
          exact h
        · rw [if_neg hav]
          rw [Res.bind_eq_ok] at h
          obtain ⟨⟨rest2, nx1, ch1⟩, hsa, h⟩ := h
          have h6 := ih hsa g2 (by simp only [List.length_cons]; omega)
          simp only [h6, Res.ok_bind]
          exact h

/-- A pass that reports no change rewrote nothing and promoted nothing. -/
theorem scanAF_nochange : ∀ {f : Nat} {l l2 nx : List Entry},
    scanAF f l = .ok (l2, nx, false) → l2 = l ∧ nx = [] := by
  intro f
  induction f with
  | zero =>
    intro l l2 nx h
    rcases l with _ | ⟨a, _ | ⟨b, rest⟩⟩
    · simp only [scanAF, Res.pure_eq_ok, Res.ok.injEq, Prod.mk.injEq] at h
      exact ⟨h.1.symm, h.2.1.symm⟩
    · simp only [scanAF, Res.pure_eq_ok, Res.ok.injEq, Prod.mk.injEq] at h
      exact ⟨h.1.symm, h.2.1.symm⟩
    · rw [show scanAF 0 (a :: b :: rest) = Res.fuel from rfl] at h
      exact Res.noConfusion h
  | succ f ih =>
    intro l l2 nx h
    rcases l with _ | ⟨a, _ | ⟨b, rest⟩⟩
    · simp only [scanAF, Res.pure_eq_ok, Res.ok.injEq, Prod.mk.injEq] at h
      exact ⟨h.1.symm, h.2.1.symm⟩
    · simp only [scanAF, Res.pure_eq_ok, Res.ok.injEq, Prod.mk.injEq] at h
      exact ⟨h.1.symm, h.2.1.symm⟩
    · rw [scanAF] at h
      split at h
      · rw [Res.bind_eq_ok] at h
        obtain ⟨⟨a2, rest2, nx1, ch1⟩, hsb, h⟩ := h
        rw [Res.bind_eq_ok] at h
        obtain ⟨⟨rest3, nx2, ch2⟩, hsa, h⟩ := h
        simp only [Res.pure_eq_ok, Res.ok.injEq, Prod.mk.injEq] at h
        obtain ⟨h1, h2, h3⟩ := h
        have hc12 : ch1 = false ∧ ch2 = false := by
          cases ch1 <;> cases ch2 <;> simp_all
        obtain ⟨k1, k2, k3⟩ := scanB_nochange (hc12.1 ▸ hsb)
        subst k1; subst k2; subst k3
        obtain ⟨m1, m2⟩ := ih (hc12.2 ▸ hsa)
        subst m1; subst m2
        refine ⟨h1.symm, ?_⟩
        rw [← h2]
        rfl
      · rw [Res.bind_eq_ok] at h
        obtain ⟨⟨rest2, nx1, ch1⟩, hsa, h⟩ := h
        simp only [Res.pure_eq_ok, Res.ok.injEq, Prod.mk.injEq] at h
        obtain ⟨h1, h2, h3⟩ := h
        rw [h3] at hsa
        obtain ⟨m1, m2⟩ := ih hsa
        subst m1; subst m2
        exact ⟨h1.symm, h2.symm⟩

/-- A no-change pass stays a no-change pass after the invalidated entries
are dropped. -/
theorem scanAF_filter : ∀ {f : Nat} {l : List Entry},
    scanAF f l = .ok (l, [], false) →
    scanAF f (l.filter (fun e => e.valid)) =
      .ok (l.filter (fun e => e.valid), [], false) := by
  intro f
  induction f with
  | zero =>
    intro l h
    rcases l with _ | ⟨a, _ | ⟨b, rest⟩⟩
    · exact h
    · rcases hav : a.valid with _ | _ <;> simp [scanAF, List.filter_cons, hav]
    · rw [show scanAF 0 (a :: b :: rest) = Res.fuel from rfl] at h
      exact Res.noConfusion h
  | succ f ih =>
    intro l h
    rcases l with _ | ⟨a, _ | ⟨b, rest⟩⟩
    · exact h
    · rcases hav : a.valid with _ | _ <;> simp [scanAF, List.filter_cons, hav]
    · rw [scanAF] at h
      split at h
      · rename_i hav
        rw [Res.bind_eq_ok] at h
        obtain ⟨⟨a2, rest2, nx1, ch1⟩, hsb, h⟩ := h
        rw [Res.bind_eq_ok] at h
        obtain ⟨⟨rest3, nx2, ch2⟩, hsa, h⟩ := h
        simp only [Res.pure_eq_ok, Res.ok.injEq, Prod.mk.injEq] at h
        obtain ⟨h1, h2, h3⟩ := h
        have hc12 : ch1 = false ∧ ch2 = false := by
          cases ch1 <;> cases ch2 <;> simp_all
        obtain ⟨k1, k2, k3⟩ := scanB_nochange (hc12.1 ▸ hsb)
        rw [k1, k3] at hsb
        rw [k2] at hsb hsa
        obtain ⟨m1, m2⟩ := scanAF_nochange (hc12.2 ▸ hsa)
        rw [m1, m2] at hsa
        have hsb2 : scanB a (b :: rest) = .ok (a, b :: rest, [], false) := hc12.1 ▸ hsb
        have hsa2 : scanAF f (b :: rest) = .ok (b :: rest, [], false) := hc12.2 ▸ hsa
        have hsbf := scanB_filter hsb2
        have hsaf := ih hsa2
        rw [List.filter_cons, if_pos hav]
        rcases hfe : (b :: rest).filter (fun e => e.valid) with _ | ⟨c, cs⟩
        · rw [hfe]
          simp [scanAF]
        · rw [hfe] at hsbf hsaf
          rw [hfe]
          rw [scanAF, if_pos hav]
          simp only [hsbf, Res.ok_bind, hsaf]
          rfl
      · rename_i hav
        rw [Res.bind_eq_ok] at h
        obtain ⟨⟨rest2, nx1, ch1⟩, hsa, h⟩ := h
        simp only [Res.pure_eq_ok, Res.ok.injEq, Prod.mk.injEq, List.cons.injEq,
          eq_self_iff_true, true_and] at h
        obtain ⟨h1, h2, h3⟩ := h
        subst h1; subst h2; subst h3
        have hsaf := ih hsa
        rw [List.filter_cons, if_neg hav]
        exact scanAF_fuel hsaf (f + 1) (by have := scanAF_min hsaf; omega)

/-- The state in which the `while did_change` loop exits: a final working
list that scans to itself with no change and no promotions, and is sorted. -/
theorem levelUpLoop_exit : ∀ {f : Nat} {ths nxt T N : List Entry},
    levelUpLoop f ths nxt = .ok (T, N) →
    scanA T = .ok (T, [], false) ∧ List.Sorted entryRel T := by
  intro f
  induction f with
  | zero =>
    intro ths nxt T N h
    rw [show levelUpLoop 0 ths nxt = Res.fuel from rfl] at h
    exact Res.noConfusion h
  | succ f ih =>
    intro ths nxt T N h
    rw [levelUpLoop] at h
    rw [Res.bind_eq_ok] at h
    obtain ⟨⟨ths2, nx, ch⟩, hop, h⟩ := h
    dsimp only at h
    split at h
    · exact ih h
    · rename_i hch
      simp only [Res.pure_eq_ok, Res.ok.injEq, Prod.mk.injEq] at h
      obtain ⟨h1, h2⟩ := h
      rw [← h1]
      have hchf : ch = false := by simpa using hch
      subst hchf
      rw [onePass, scanA] at hop
      obtain ⟨m1, m2⟩ := scanAF_nochange hop
      subst m2
      constructor
      · rw [scanA, m1]
        rw [m1] at hop
        exact hop
      · rw [m1, sortEntries]
        exact List.sorted_insertionSort entryRel ths

/-- After the level-processing loop, every processed level scans to itself
with no change and is sorted; untouched levels keep their content. -/
theorem processLevels_fix : ∀ {c : Nat} {levels levels2 : List (List Entry)},
    processLevels c levels = .ok levels2 → levels.length = 129 → c ≤ 128 →
    (∀ i : Nat, 1 ≤ i → i ≤ c →
      scanA (levels2.getD i []) = .ok (levels2.getD i [], [], false) ∧
      List.Sorted entryRel (levels2.getD i [])) ∧
    (∀ i : Nat, c < i → levels2.getD i [] = levels.getD i []) := by
  intro c
  induction c with
  | zero =>
    intro levels levels2 h hl hc
    simp only [processLevels, Res.ok.injEq] at h
    subst h
    exact ⟨fun i h1 h2 => absurd (le_trans h1 h2) (by omega), fun i _ => rfl⟩
  | succ c ih =>
    intro levels levels2 h hl hc
    rw [processLevels] at h
    rw [Res.bind_eq_ok] at h
    obtain ⟨⟨t, n⟩, hlu, h⟩ := h
    dsimp only at h
    rw [levelUp] at hlu
    have hexit := levelUpLoop_exit hlu
    have hlen2 : ((levels.set (c + 1) t).set c n).length = 129 := by
      rw [List.length_set, List.length_set]
      exact hl
    obtain ⟨k1, k2⟩ := ih h hlen2 (by omega)
    have hgetc1 : ((levels.set (c + 1) t).set c n).getD (c + 1) [] = t := by
      rw [getD_set_ne _ _ _ _ _ (by omega)]
      rw [getD_set_self]
      rw [hl]
      omega
    constructor
    · intro i h1 h2
      rcases Nat.lt_or_ge i (c + 1) with hi | hi
      · exact k1 i h1 (by omega)
      · have hieq : i = c + 1 := by omega
        subst hieq
        rw [k2 (c + 1) (by omega), hgetc1]
        exact hexit
    · intro i hgt
      rw [k2 i (by omega)]
      rw [getD_set_ne _ _ _ _ _ (by omega), getD_set_ne _ _ _ _ _ (by omega)]

/-- Writing back the value already stored is the identity. -/
theorem set_getD_self {α : Type} (l : List α) (i : Nat) (d : α) (h : i < l.length) :
    l.set i (l.getD i d) = l := by
  apply List.ext_getElem?
  intro n
  by_cases hn : n = i
  · subst hn
    rw [List.getD_eq_getElem l d h]
    rw [List.getElem?_set_self (by omega)]
    rw [List.getElem?_eq_getElem h]
  · rw [List.getElem?_set_ne (fun hh => hn hh.symm)]

/-- Pushing any entry list whose masks are all in range succeeds. -/
theorem buckets_total : ∀ {es : List Entry} (acc : List (List Entry)),
    acc.length = 129 → (∀ e ∈ es, e.mask < 129) →
    ∃ levels, es.foldlM pushLevel acc = .ok levels := by
  intro es
  induction es with
  | nil =>
    intro acc hl hm
    exact ⟨acc, by simp [List.foldlM_nil]⟩
  | cons e es ih =>
    intro acc hl hm
    have hcond : e.mask < acc.length := by
      rw [hl]
      exact hm e (List.mem_cons_self _ _)
    have hpush : pushLevel acc e = .ok (acc.set e.mask (acc.getD e.mask [] ++ [e])) := by
      rw [pushLevel, if_pos hcond]
    obtain ⟨levels, hrest⟩ := ih (acc.set e.mask (acc.getD e.mask [] ++ [e]))
      (by rw [List.length_set]; exact hl)
      (fun x hx => hm x (List.mem_cons_of_mem e hx))
    refine ⟨levels, ?_⟩
    rw [List.foldlM_cons, hpush, Res.ok_bind]
    exact hrest

/-- Every collected entry came from some level of the vector. -/
theorem collectOut_mem {ls : List (List Entry)} {e : Entry}
    (he : e ∈ collectOut ls) : ∃ i : Nat, i < ls.length ∧ e ∈ ls.getD i [] := by
  rw [collectOut, List.mem_flatten] at he
  obtain ⟨es, hes, hee⟩ := he
  rw [List.mem_map] at hes
  obtain ⟨es2, hes2, heq⟩ := hes
  rw [← heq] at hee
  rw [List.mem_reverse] at hes2
  obtain ⟨i, hi, hgi⟩ := List.mem_iff_getElem.mp hes2
  refine ⟨i, hi, ?_⟩
  rw [List.getD_eq_getElem _ _ hi, hgi]
  exact (List.mem_filter.mp hee).1

/-- Filtering the collected output by mask recovers the live part of the
corresponding level, in order. -/
theorem filter_mask_collect : ∀ (ls : List (List Entry)),
    (∀ k : Nat, ∀ e ∈ ls.getD k [], e.mask = k) → ∀ i : Nat,
    (collectOut ls).filter (fun e => decide (e.mask = i)) =
      (ls.getD i []).filter (fun e => e.valid) := by
  intro ls
  induction ls using List.reverseRecOn with
  | nil =>
    intro hinv i
    simp [collectOut]
  | append_singleton init last ih =>
    intro hinv i
    have hinit : ∀ k : Nat, ∀ e ∈ init.getD k [], e.mask = k := by
      intro k e he
      rcases Nat.lt_or_ge k init.length with hk | hk
      · have hgk : (init ++ [last]).getD k [] = init.getD k [] := by
          rw [List.getD_eq_getElem?_getD, List.getElem?_append_left hk,
            ← List.getD_eq_getElem?_getD]
        exact hinv k e (by rw [hgk]; exact he)
      · rw [List.getD_eq_getElem?_getD, List.getElem?_eq_none (by omega)] at he
        exact absurd he (List.not_mem_nil e)
    have hgl : (init ++ [last]).getD init.length [] = last := by
      rw [List.getD_eq_getElem _ _ (by simp)]
      exact List.getElem_concat_length init last init.length rfl (by simp)
    have hlast : ∀ e ∈ last, e.mask = init.length := by
      intro e he
      exact hinv init.length e (by rw [hgl]; exact he)
    have hco : collectOut (init ++ [last]) =
        last.filter (fun e => e.valid) ++ collectOut init := by
      rw [collectOut, collectOut, List.reverse_append]
      simp
    rw [hco, List.filter_append]
    by_cases hi : i = init.length
    · subst hi
      have h1 : (last.filter (fun e => e.valid)).filter
          (fun e => decide (e.mask = init.length)) = last.filter (fun e => e.valid) := by
        apply List.filter_eq_self.mpr
        intro e he
        simp [hlast e (List.mem_filter.mp he).1]
      have h3 : init.getD init.length [] = [] := by
        rw [List.getD_eq_getElem?_getD, List.getElem?_eq_none (by omega)]
        rfl
      rw [h1, ih hinit init.length, h3, hgl]
      simp
    · have h1 : (last.filter (fun e => e.valid)).filter
          (fun e => decide (e.mask = i)) = [] := by
        apply List.filter_eq_nil_iff.mpr
        intro e he
        have hm := hlast e (List.mem_filter.mp he).1
        simp only [decide_eq_true_eq]
        omega
      rw [h1, ih hinit i]
      rcases Nat.lt_or_ge i init.length with hlt | hge
      · have h3 : (init ++ [last]).getD i [] = init.getD i [] := by
          rw [List.getD_eq_getElem?_getD, List.getElem?_append_left hlt,
            ← List.getD_eq_getElem?_getD]
        rw [h3]
        simp
      · have hgt : init.length < i := by omega
        have h3 : init.getD i [] = [] := by
          rw [List.getD_eq_getElem?_getD, List.getElem?_eq_none (by omega)]
          rfl
        have h4 : (init ++ [last]).getD i [] = [] := by
          rw [List.getD_eq_getElem?_getD, List.getElem?_eq_none (by simp; omega)]
          rfl
        rw [h3, h4]
        simp

/-- Claim C2, counterexample: `aggregate({192.0.2.0/24, 192.0.3.0/24})`
returns the single working entry `(192.0.2.0, mask 23, min 24, max 24)`,
whose `Display` rendering is not `192.0.2.0/23 le 24`: because
`min = 24 ≠ mask`, the entry is written with an explicit ` ge 24`. -/
theorem c2_counterexample :
    aggregate [(IpAddr.v4 addr19202, 24), (IpAddr.v4 addr19203, 24)] =
      .ok [⟨IpAddr.v4 addr19202, 23, 24, 24, true⟩] ∧
    entryStr ⟨IpAddr.v4 addr19202, 23, 24, 24, true⟩ ≠ "192.0.2.0/23 le 24" :=
  ⟨by decide, by decide⟩

/-- Claim C2, amended: `aggregate({192.0.2.0/24, 192.0.3.0/24})` returns the
single entry `(addr 192.0.2.0, mask 23, min 24, max 24)`, written
`192.0.2.0/23 ge 24 le 24`. -/
theorem c2_amended :
    aggregate [(IpAddr.v4 addr19202, 24), (IpAddr.v4 addr19203, 24)] =
      .ok [⟨IpAddr.v4 addr19202, 23, 24, 24, true⟩] ∧
    entryStr ⟨IpAddr.v4 addr19202, 23, 24, 24, true⟩ = "192.0.2.0/23 ge 24 le 24" :=
  ⟨by decide, by decide⟩

/-- Claim C3, counterexample: for the IPv6 pair `a = 2001:db8::/32` and
`b = 2001:db9::/32` (sorted, same family, live), the claimed predicate
`b.addr ≤ a.addr + 2^(w − a.mask)` with `w = 128` holds, yet the code's
`touching` returns `false`: it computes the wildcard width as
`32 - mask`, not `128 - mask`. -/
theorem c3_counterexample :
    entryRel ⟨IpAddr.v6 addrDb8, 32, 32, 32, true⟩ ⟨IpAddr.v6 (addrDb8 + 2 ^ 96), 32, 32, 32, true⟩ ∧
    (IpAddr.v6 (addrDb8 + 2 ^ 96)).val ≤
      (IpAddr.v6 addrDb8).val + 2 ^ ((IpAddr.v6 addrDb8).width - 32) ∧
    touching ⟨IpAddr.v6 addrDb8, 32, 32, 32, true⟩ ⟨IpAddr.v6 (addrDb8 + 2 ^ 96), 32, 32, 32, true⟩ =
      .ok false := by
  refine ⟨?_, by decide, by decide⟩
  simp [entryRel, Entry.sortKey, Prod.Lex.le_iff, IpAddr.fam, IpAddr.val]

/-- Claim C3, amended: for same-family entries `a`, `b` with
`1 ≤ a.mask ≤ 32` and no u32/u128 overflow in `a.addr + (1 << (32 - a.mask))`,
the code's touching predicate holds iff
`b.addr ≤ a.addr + 2^(32 − a.mask)` — the wildcard width is `32 - a.mask`
for BOTH families, not `w − a.mask`; IPv6 entries with `a.mask > 32` make
the u32 subtraction underflow (a panic in debug builds). -/
theorem c3_amended (a b : Entry) (hfam : a.pfx.fam = b.pfx.fam)
    (h1 : 1 ≤ a.mask) (h2 : a.mask ≤ 32)
    (hov : a.pfx.val + 2 ^ (32 - a.mask) < 2 ^ a.pfx.width) :
    touching a b = .ok (decide (b.pfx.val ≤ a.pfx.val + 2 ^ (32 - a.mask))) := by
  have hs : chkSub 32 a.mask = .ok (32 - a.mask) := by simp [chkSub, h2]
  cases ha : a.pfx with
  | v4 x =>
    cases hb : b.pfx with
    | v4 y =>
      have hlt : 32 - a.mask < 32 := by omega
      have hv : (1 <<< (32 - a.mask)) % 2 ^ 32 = 2 ^ (32 - a.mask) := by
        rw [Nat.shiftLeft_eq, one_mul, Nat.mod_eq_of_lt]
        exact Nat.pow_lt_pow_right (by norm_num) hlt
      rw [touching, hs]
      simp only [Res.ok_bind]
      rw [ha] at hov
      rw [ha, hb]
      simp only [IpAddr.val, IpAddr.width] at hov ⊢
      have hv2 : 1 <<< (32 - a.mask) % 4294967296 = 2 ^ (32 - a.mask) := hv
      have hov2 : x + 2 ^ (32 - a.mask) < 4294967296 := hov
      simp [chkShl, chkAdd, hlt, hv2, hov2, IpAddr.val]
    | v6 y => rw [ha, hb] at hfam; simp [IpAddr.fam] at hfam
  | v6 x =>
    cases hb : b.pfx with
    | v4 y => rw [ha, hb] at hfam; simp [IpAddr.fam] at hfam
    | v6 y =>
      have hlt : 32 - a.mask < 128 := by omega
      have hv : (1 <<< (32 - a.mask)) % 2 ^ 128 = 2 ^ (32 - a.mask) := by
        rw [Nat.shiftLeft_eq, one_mul, Nat.mod_eq_of_lt]
        exact Nat.pow_lt_pow_right (by norm_num) (by omega)
      rw [touching, hs]
      simp only [Res.ok_bind]
      rw [ha] at hov
      rw [ha, hb]
      simp only [IpAddr.val, IpAddr.width] at hov ⊢
      have hv2 : 1 <<< (32 - a.mask) % 340282366920938463463374607431768211456 =
        2 ^ (32 - a.mask) := hv
      have hov2 : x + 2 ^ (32 - a.mask) < 340282366920938463463374607431768211456 := hov
      simp [chkShl, chkAdd, hlt, hv2, hov2, IpAddr.val]

/-- Witness for the amended C3 theorem at a concrete input:
`a = 10.0.0.0/8`, `b = 11.0.0.0/8` touch. -/
theorem c3_amended_witness :
    touching ⟨IpAddr.v4 (10 * 2 ^ 24), 8, 8, 8, true⟩ ⟨IpAddr.v4 (11 * 2 ^ 24), 8, 8, 8, true⟩ =
      .ok (decide ((IpAddr.v4 (11 * 2 ^ 24)).val ≤ (IpAddr.v4 (10 * 2 ^ 24)).val + 2 ^ (32 - 8))) :=
  c3_amended ⟨IpAddr.v4 (10 * 2 ^ 24), 8, 8, 8, true⟩ ⟨IpAddr.v4 (11 * 2 ^ 24), 8, 8, 8, true⟩
    (by decide) (by decide) (by decide) (by decide)

/-- `splitByte` always yields at least one piece. -/
theorem splitByte_ne_nil (sep : Nat) (s : RStr) : splitByte sep s ≠ [] := by
  induction s with
  | nil => simp [splitByte]
  | cons c rest ih =>
    rw [splitByte]
    split
    · simp
    · cases h : splitByte sep rest with
      | nil => exact absurd h ih
      | cons t ts => simp

/-- One-piece characterization of the byte split. -/
theorem splitByte_eq_singleton (sep : Nat) (s t : RStr) :
    splitByte sep s = [t] ↔ s = t ∧ sep ∉ t := by
  induction s generalizing t with
  | nil =>
    constructor
    · intro h
      simp [splitByte] at h
      subst h
      exact ⟨rfl, by simp⟩
    · rintro ⟨rfl, -⟩
      rfl
  | cons c rest ih =>
    rw [splitByte]
    split
    · rename_i hc
      subst hc
      constructor
      · intro h
        cases ht : splitByte c rest with
        | nil => exact absurd ht (splitByte_ne_nil c rest)
        | cons u us => rw [ht] at h; simp at h
      · rintro ⟨rfl, hmem⟩
        simp at hmem
    · rename_i hc
      constructor
      · intro h
        cases ht : splitByte sep rest with
        | nil => exact absurd ht (splitByte_ne_nil sep rest)
        | cons u us =>
          rw [ht] at h
          simp only [List.cons.injEq] at h
          obtain ⟨rfl, rfl⟩ := h
          obtain ⟨rfl, hnu⟩ := (ih u).mp ht
          refine ⟨rfl, ?_⟩
          simp only [List.mem_cons, not_or]
          exact ⟨fun hsc => hc hsc.symm, hnu⟩
      · rintro ⟨rfl, hmem⟩
        simp only [List.mem_cons, not_or] at hmem
        rw [(ih rest).mpr ⟨rfl, hmem.2⟩]

/-- Two-piece characterization of the byte split: exactly one separator. -/
theorem splitByte_eq_pair (sep : Nat) (s a b : RStr) :
    splitByte sep s = [a, b] ↔ s = a ++ sep :: b ∧ sep ∉ a ∧ sep ∉ b := by
  induction s generalizing a with
  | nil =>
    constructor
    · intro h; simp [splitByte] at h
    · rintro ⟨h, -, -⟩; simp at h
  | cons c rest ih =>
    rw [splitByte]
    split
    · rename_i hc
      subst hc
      constructor
      · intro h
        simp only [List.cons.injEq] at h
        obtain ⟨rfl, hrest⟩ := h
        obtain ⟨rfl, hb⟩ := (splitByte_eq_singleton c rest b).mp hrest
        exact ⟨rfl, by simp, hb⟩
      · rintro ⟨heq, ha, hb⟩
        cases a with
        | nil =>
          simp only [List.nil_append, List.cons.injEq] at heq
          obtain ⟨-, rfl⟩ := heq
          rw [(splitByte_eq_singleton c rest rest).mpr ⟨rfl, hb⟩]
        | cons x xs =>
          simp only [List.cons_append, List.cons.injEq] at heq
          obtain ⟨rfl, -⟩ := heq
          simp at ha
    · rename_i hc
      constructor
      · intro h
        cases ht : splitByte sep rest with
        | nil => exact absurd ht (splitByte_ne_nil sep rest)
        | cons u us =>
          rw [ht] at h
          simp only [List.cons.injEq] at h
          obtain ⟨rfl, rfl⟩ := h
          obtain ⟨rfl, hu, hb⟩ := (ih u).mp ht
          refine ⟨rfl, ?_, hb⟩
          simp only [List.mem_cons, not_or]
          exact ⟨fun hsc => hc hsc.symm, hu⟩
      · rintro ⟨heq, ha, hb⟩
        cases a with
        | nil =>
          simp only [List.nil_append, List.cons.injEq] at heq
          exact absurd heq.1 hc
        | cons x xs =>
          simp only [List.cons_append, List.cons.injEq] at heq
          obtain ⟨rfl, rfl⟩ := heq
          simp only [List.mem_cons, not_or] at ha
          rw [(ih xs).mpr ⟨rfl, ha.2, hb⟩]

/-- Every value accepted by the digit loop stays below the type bound once
the accumulator is below it. -/
theorem parseDigits_lt {bound : Nat} :
    ∀ {l : RStr} {acc v : Nat}, acc < bound → parseDigits bound l acc = some v → v < bound := by
  intro l
  induction l with
  | nil => intro acc v h1 h2; rw [parseDigits] at h2; cases h2; exact h1
  | cons b bs ih =>
    intro acc v h1 h2
    rw [parseDigits] at h2
    split at h2
    · split at h2
      · rename_i hlt2
        exact ih hlt2 h2
      · cases h2
    · cases h2

/-- Values parsed by `parseUnsigned` are below the bound. -/
theorem parseUnsigned_lt {bound : Nat} {s : RStr} {n : Nat}
    (h : parseUnsigned bound s = some n) : n < bound := by
  rw [parseUnsigned] at h
  split at h
  · cases h
  · rename_i hne
    cases hds : stripPlus s with
    | nil => exact absurd hds hne
    | cons b bs =>
      rw [hds, parseDigits] at h
      split at h
      · split at h
        · rename_i hlt2
          exact parseDigits_lt hlt2 h
        · cases h
      · cases h

/-- Claim C7, counterexample: `parse_prefix("10.0.0.0/200")` succeeds with
mask 200, although 200 lies outside `[0,128]` — the mask is parsed as a
plain `u8`, with no range check against 128. -/
theorem c7_counterexample :
    parse_prefix [49, 48, 46, 48, 46, 48, 46, 48, 47, 50, 48, 48] =
      some (IpAddr.v4 167772160, 200) ∧ 128 < 200 := by
  exact ⟨by decide, by decide⟩

/-- Claim C7, amended: `parse_prefix` succeeds exactly on inputs with
exactly one `'/'` whose left side parses as a textual IPv4 or IPv6 address
and whose right side parses as a decimal `u8` — a mask in `[0,255]`, not
`[0,128]`; masks 129–255 are accepted, not rejected. -/
theorem c7_amended (s : RStr) (p : Prefix) :
    parse_prefix s = some p ↔
      ∃ a b, s = a ++ 47 :: b ∧ 47 ∉ a ∧ 47 ∉ b ∧
        parseIpAddr a = some p.1 ∧ parseU8 b = some p.2 ∧ p.2 ≤ 255 := by
  constructor
  · intro h
    rw [ parse_prefix] at h
    split at h
    · rename_i ip m hsp
      obtain ⟨rfl, h47a, h47b⟩ := (splitByte_eq_pair 47 s ip m).mp hsp
      cases hip : parseIpAddr ip with
      | none => rw [hip] at h; simp at h
      | some av =>
        cases hm : parseU8 m with
        | none => rw [hip, hm] at h; simp at h
        | some mv =>
          rw [hip, hm] at h
          simp only [Option.some.injEq] at h
          subst h
          have hlt := parseUnsigned_lt hm
          exact ⟨ip, m, rfl, h47a, h47b, hip, hm, by omega⟩
    · cases h
  · rintro ⟨a, b, rfl, ha, hb, hip, hm, -⟩
    simp [ parse_prefix, (splitByte_eq_pair 47 _ a b).mpr ⟨rfl, ha, hb⟩, hip, hm]

/-- Claim C5: the classifier is NOT total.  On the single-character input
`"€"` (UTF-8 bytes `E2 82 AC`), `input.get(0..3)` yields the whole string,
both set-prefix guards fail, and the third guard's `name[..2]` slices at
byte index 2 — the middle of the three-byte character — which panics.
The claim (and the spec's classifier-totality invariant) say
classification never panics, so the code is wrong here. -/
theorem c5_failing_input_panics : queryTryFrom [226, 130, 172] = .panic := by decide

/-- Claim C6, counterexample: `parse_autnum("As65000")` does not return
65000 — `starts_with("AS") || starts_with("as")` is case-sensitive per
variant, so mixed-case `"As"` is rejected with `InvalidData`. -/
theorem c6_counterexample :
    parse_autnum [65, 115, 54, 53, 48, 48, 48] = none := by decide

/-- Claim C6, amended: `parse_autnum` succeeds exactly on the literal
prefix `"AS"` or `"as"` (uniform case; the mixed-case forms `"As65000"`,
`"aS65000"` fail with `InvalidData`) followed by text parsing as a `u32`
(decimal digits, optionally preceded by `'+'`, value below `2^32`).
`"AS65000"` and `"as65000"` both yield 65000. -/
theorem c6_amended :
    (∀ s n, parse_autnum s = some n ↔
      ∃ core, (s = [65, 83] ++ core ∨ s = [97, 115] ++ core) ∧ parseU32 core = some n) ∧
    parse_autnum [65, 83, 54, 53, 48, 48, 48] = some 65000 ∧
    parse_autnum [97, 115, 54, 53, 48, 48, 48] = some 65000 ∧
    parse_autnum [65, 115, 54, 53, 48, 48, 48] = none ∧
    parse_autnum [97, 83, 54, 53, 48, 48, 48] = none := by
  refine ⟨fun s n => ?_, by decide, by decide, by decide, by decide⟩
  constructor
  · intro h
    rw [parse_autnum] at h
    split at h
    · rename_i hpre
      rcases Bool.or_eq_true_iff.mp hpre with hp | hp
      · rcases List.isPrefixOf_iff_prefix.mp hp with ⟨core, rfl⟩
        exact ⟨core, Or.inl rfl, by simpa using h⟩
      · rcases List.isPrefixOf_iff_prefix.mp hp with ⟨core, rfl⟩
        exact ⟨core, Or.inr rfl, by simpa using h⟩
    · exact absurd h (by simp)
  · rintro ⟨core, hpre, hcore⟩
    rcases hpre with rfl | rfl <;> simp [parse_autnum, List.IsPrefix, hcore]

/-- Claim C4: the aggregator is NOT total.  On the input
`{2001:db8::/33, 2001:db8:4000::/33}` — two IPv6 prefixes with mask > 32
that are neither siblings nor window-adjacent — the `touching` computation
evaluates `32 - 33` on `u32`, which underflows, so `aggregate` panics
(debug build) instead of returning a result.  The spec's intent (width
`w − mask` with `w = 128` for IPv6) makes this a bug in the code. -/
theorem c4_failing_input_panics :
    aggregate [(IpAddr.v6 addrDb8, 33), (IpAddr.v6 (addrDb8 + 2 ^ 94), 33)] = .panic := by
  decide

/-- Claim C1, counterexample to the claim as stated, which quantifies over
every input: for the two far-apart IPv6 `/40` prefixes below, `touching`
evaluates the u32 subtraction `32 - 40`, so `aggregate` panics and returns
no entry list at all, while the input accepts at least one query prefix;
on such inputs no output accepted set exists that could equal the input's. -/
theorem c1_counterexample :
    aggregate [(IpAddr.v6 addrDb8, 40), (IpAddr.v6 (addrDb8 + 3 * 2 ^ 88), 40)] = .panic ∧
    acceptsB (fromPrefix (IpAddr.v6 addrDb8, 40)) (IpAddr.v6 addrDb8, 40) = true :=
  ⟨by decide, by decide⟩

/-- Claim C1 (amended): whenever `aggregate` returns a result at all, the
set of query prefixes accepted by the returned entries — reading an entry
`(addr, mask, min, max)` as accepting the prefixes inside `addr/mask` whose
length lies in `[min, max]` — is exactly the set accepted by the input
prefixes read as exact-match entries. -/
theorem c1_amended {ps : List Prefix} {R : List Entry} (h : aggregate ps = .ok R) :
    ∀ q : Prefix, (∃ e ∈ R, acceptsB e q = true) ↔
      ∃ p ∈ ps, acceptsB (fromPrefix p) q = true := by
  rw [aggregate, aggregateEntries] at h
  rw [Res.bind_eq_ok] at h
  obtain ⟨levels, hb, h⟩ := h
  rw [Res.bind_eq_ok] at h
  obtain ⟨levels2, hpl, h⟩ := h
  simp only [Res.pure_eq_ok, Res.ok.injEq] at h
  subst h
  have hw : ∀ e ∈ ps.map fromPrefix, WInv e := by
    intro e he
    rw [List.mem_map] at he
    obtain ⟨p, -, heq⟩ := he
    rw [← heq]
    exact ⟨le_refl _, le_refl _⟩
  obtain ⟨hlen, -⟩ := buckets_ok hb
  obtain ⟨-, -, hcov⟩ := processLevels_ok hpl hlen (by omega) (LInv_buckets hb hw)
  intro q
  constructor
  · rintro ⟨e, he, ha⟩
    have h1 : okU (collectOut levels2) q := ⟨e, he, collectOut_valid he, ha⟩
    have h2 := (okLevels_buckets hb q).mp ((hcov q).mp (okU_collectOut.mp h1))
    obtain ⟨e2, he2, hv2, ha2⟩ := h2
    rw [List.mem_map] at he2
    obtain ⟨p, hp2, heq⟩ := he2
    refine ⟨p, hp2, ?_⟩
    rw [heq]
    exact ha2
  · rintro ⟨p, hp2, ha⟩
    have h1 : okU (ps.map fromPrefix) q :=
      ⟨fromPrefix p, List.mem_map_of_mem _ hp2, rfl, ha⟩
    have h2 := okU_collectOut.mpr ((hcov q).mpr ((okLevels_buckets hb q).mpr h1))
    obtain ⟨e, he, hv, ha2⟩ := h2
    exact ⟨e, he, ha2⟩

/-- Claim C1, witness: the amended soundness theorem applied to the concrete
aggregation of `{192.0.2.0/24, 192.0.3.0/24}` at the query `192.0.2.0/24`. -/
theorem c1_amended_witness :
    (∃ e ∈ [(⟨IpAddr.v4 addr19202, 23, 24, 24, true⟩ : Entry)],
        acceptsB e (IpAddr.v4 addr19202, 24) = true) ↔
      ∃ p ∈ [((IpAddr.v4 addr19202 : IpAddr), 24), ((IpAddr.v4 addr19203 : IpAddr), 24)],
        acceptsB (fromPrefix p) (IpAddr.v4 addr19202, 24) = true :=
  c1_amended (by decide) (IpAddr.v4 addr19202, 24)

/-- Claim C10: aggregation is idempotent — re-lifting the range entries
returned by a successful `aggregate` run back into the working
representation and running the aggregation body again yields exactly the
same entries. -/
theorem c10_idempotent {ps : List Prefix} {R : List Entry} (h : aggregate ps = .ok R) :
    aggregateEntries R = .ok R := by
  rw [aggregate, aggregateEntries] at h
  rw [Res.bind_eq_ok] at h
  obtain ⟨levels, hb, h⟩ := h
  rw [Res.bind_eq_ok] at h
  obtain ⟨levels2, hpl, h⟩ := h
  simp only [Res.pure_eq_ok, Res.ok.injEq] at h
  subst h
  have hw : ∀ e ∈ ps.map fromPrefix, WInv e := by
    intro e he
    rw [List.mem_map] at he
    obtain ⟨p, -, heq⟩ := he
    rw [← heq]
    exact ⟨le_refl _, le_refl _⟩
  obtain ⟨hlen, -⟩ := buckets_ok hb
  obtain ⟨hlen2, hLI2, -⟩ := processLevels_ok hpl hlen (by omega) (LInv_buckets hb hw)
  obtain ⟨hfix, -⟩ := processLevels_fix hpl hlen (by omega)
  have hmaskR : ∀ e ∈ collectOut levels2, e.mask < 129 := by
    intro e he
    obtain ⟨i, hi, he2⟩ := collectOut_mem he
    rw [hlen2] at hi
    rw [(hLI2 i e he2).1]
    exact hi
  obtain ⟨levelsR, hbR⟩ := buckets_total (List.replicate 129 ([] : List Entry))
    (by simp) hmaskR
  have hbR2 : buckets (collectOut levels2) = .ok levelsR := by
    rw [buckets]
    exact hbR
  obtain ⟨hlenR, hgetR⟩ := buckets_ok hbR2
  have hFi : ∀ i : Nat, levelsR.getD i [] = (levels2.getD i []).filter (fun e => e.valid) := by
    intro i
    rw [hgetR i]
    exact filter_mask_collect levels2 (fun k e he => (hLI2 k e he).1) i
  have hstep : ∀ c : Nat, c ≤ 128 → processLevels c levelsR = .ok levelsR := by
    intro c
    induction c with
    | zero => intro hc; rfl
    | succ c ihc =>
      intro hc
      obtain ⟨hsc, hsrt⟩ := hfix (c + 1) (by omega) (by omega)
      have hscF : scanA ((levels2.getD (c + 1) []).filter (fun e => e.valid)) =
          .ok ((levels2.getD (c + 1) []).filter (fun e => e.valid), [], false) := by
        rw [scanA] at hsc ⊢
        have h7 := scanAF_filter hsc
        exact scanAF_fuel h7 _ (by omega)
      have hsrtF : List.Sorted entryRel
          ((levels2.getD (c + 1) []).filter (fun e => e.valid)) :=
        hsrt.sublist (List.filter_sublist _)
      have hop : onePass (levelsR.getD (c + 1) []) =
          .ok (levelsR.getD (c + 1) [], [], false) := by
        rw [onePass, hFi (c + 1), sortEntries, List.Sorted.insertionSort_eq hsrtF]
        exact hscF
      have hlu : levelUp (levelsR.getD (c + 1) []) (levelsR.getD c []) =
          .ok (levelsR.getD (c + 1) [], levelsR.getD c []) := by
        rw [levelUp, levelUpLoop, hop, Res.ok_bind]
        simp
      rw [processLevels]
      dsimp only
      rw [hlu, Res.ok_bind]
      dsimp only
      rw [set_getD_self levelsR (c + 1) [] (by rw [hlenR]; omega)]
      rw [set_getD_self levelsR c [] (by rw [hlenR]; omega)]
      exact ihc (by omega)
  have hRmap : levelsR = levels2.map (fun es => es.filter (fun e => e.valid)) := by
    apply List.ext_getElem
    · rw [hlenR, List.length_map, hlen2]
    · intro i h1 h2
      have h3 : levelsR[i] = levelsR.getD i [] := by
        rw [List.getD_eq_getElem _ _ h1]
      rw [h3, hFi i, List.getElem_map]
      congr 1
      rw [List.getD_eq_getElem levels2 [] (by rw [hlen2]; rw [hlenR] at h1; omega)]
  have hcoll : collectOut (levels2.map (fun es => es.filter (fun e => e.valid))) =
      collectOut levels2 := by
    rw [collectOut, collectOut]
    congr 1
    rw [← List.map_reverse, List.map_map]
    apply List.map_congr_left
    intro es hes
    simp [Function.comp, List.filter_filter]
  rw [aggregateEntries, hbR2, Res.ok_bind, hstep 128 (by omega), Res.ok_bind]
  rw [hRmap, hcoll]
  rw [Res.pure_eq_ok]

/-- Claim C10, witness: re-aggregating the concrete output of
`aggregate({192.0.2.0/24, 192.0.3.0/24})` returns it unchanged. -/
theorem c10_witness :
    aggregateEntries [(⟨IpAddr.v4 addr19202, 23, 24, 24, true⟩ : Entry)] =
      .ok [(⟨IpAddr.v4 addr19202, 23, 24, 24, true⟩ : Entry)] :=
  @c10_idempotent [(IpAddr.v4 addr19202, 24), (IpAddr.v4 addr19203, 24)]
    [(⟨IpAddr.v4 addr19202, 23, 24, 24, true⟩ : Entry)] (by decide)

/-- `isReserved` decides exactly the spec's reserved/invalid AS set. -/
theorem isReserved_iff (n : Nat) :
    isReserved n = true ↔
      n = 0 ∨ n = 23456 ∨ (64496 ≤ n ∧ n ≤ 65535) ∨
        (4200000000 ≤ n ∧ n ≤ 4294967294) := by
  simp [isReserved, or_assoc]

/-- Per-payload behaviour of the `resolve_as_sets` token loop: on success
every token parsed, and the result is the parsed numbers minus the
reserved ones, in arrival order. -/
theorem pushAutnums_spec : ∀ {toks : List RStr} {l : List Nat},
    pushAutnums toks = .ok l →
    ∃ nums, parseAll toks = some nums ∧
      l = nums.filter (fun n => !isReserved n) := by
  intro toks
  induction toks with
  | nil =>
    intro l h
    rw [pushAutnums] at h
    simp only [Res.ok.injEq] at h
    exact ⟨[], rfl, by simp [← h]⟩
  | cons t ts ih =>
    intro l h
    rw [pushAutnums] at h
    split at h
    · cases h
    · rename_i n hn
      rw [Res.bind_eq_ok] at h
      obtain ⟨rest, hrest, h⟩ := h
      obtain ⟨nums, hm, rfl⟩ := ih hrest
      split at h <;> rename_i hres <;>
        simp only [Res.pure_eq_ok, Res.ok.injEq] at h <;> subst h
      · exact ⟨n :: nums, by simp [parseAll, hn, hm], by simp [hres]⟩
      · exact ⟨n :: nums, by simp [parseAll, hn, hm], by simp [hres]⟩

/-- No reserved AS number survives into any list built by the
`resolve_as_sets` read loop. -/
theorem readAsSetsLoop_reserved : ∀ {names : List RStr} {fs : List Frame}
    {m : List (RStr × List Nat)} {fs2 : List Frame},
    readAsSetsLoop names fs = .ok (m, fs2) →
    ∀ nm l, (nm, l) ∈ m → ∀ n ∈ l, isReserved n = false := by
  intro names
  induction names with
  | nil =>
    intro fs m fs2 h nm l hm
    rw [readAsSetsLoop] at h
    simp only [Res.ok.injEq, Prod.mk.injEq] at h
    rw [← h.1] at hm
    simp at hm
  | cons name ns ih =>
    intro fs m fs2 h nm l hm
    rw [readAsSetsLoop] at h
    rw [Res.bind_eq_ok] at h
    obtain ⟨⟨r, fs1⟩, hr, h⟩ := h
    rw [Res.bind_eq_ok] at h
    obtain ⟨nums, hnums, h⟩ := h
    rw [Res.bind_eq_ok] at h
    obtain ⟨⟨rest, fs3⟩, hrest, h⟩ := h
    simp only [Res.pure_eq_ok, Res.ok.injEq, Prod.mk.injEq] at h
    rw [← h.1] at hm
    rcases List.mem_cons.mp hm with heq | hmem
    · obtain ⟨rfl, rfl⟩ := Prod.mk.injEq .. ▸ heq
      intro n hn
      match r, hnums with
      | none, hnums =>
        simp only [Res.pure_eq_ok, Res.ok.injEq] at hnums
        rw [← hnums] at hn
        simp at hn
      | some payload, hnums =>
        obtain ⟨nums2, -, rfl⟩ := pushAutnums_spec hnums
        simp only [List.mem_filter, Bool.not_eq_eq_eq_not, Bool.not_true] at hn
        exact hn.2
    · exact ih hrest nm l hmem

/-- Claim C8: (1) no AS number placed in any list returned by
`resolve_as_sets` is reserved (0, 23456, 64496–65535, or
4200000000–4294967294); (2) per reply payload, on success every token
parsed via `parse_autnum` and the retained numbers are exactly the
non-reserved ones, in arrival order. -/
theorem c8_as_filtering :
    (∀ (names : List RStr) (st : ConnState) m st2,
       resolveAsSets names st = .ok (m, st2) →
       ∀ nm l, (nm, l) ∈ m → ∀ n ∈ l,
         ¬(n = 0 ∨ n = 23456 ∨ (64496 ≤ n ∧ n ≤ 65535) ∨
           (4200000000 ≤ n ∧ n ≤ 4294967294))) ∧
    (∀ (payload : RStr) (l : List Nat),
       pushAutnums (splitWs payload) = .ok l →
       ∃ nums, parseAll (splitWs payload) = some nums ∧
         l = nums.filter (fun n => !isReserved n)) := by
  constructor
  · intro names st m st2 h nm l hm n hn hbad
    simp only [resolveAsSets, Res.bind_eq_bind] at h
    rw [Res.bind_eq_ok] at h
    obtain ⟨⟨m2, fs⟩, hloop, h⟩ := h
    simp only [Res.ok.injEq, Prod.mk.injEq] at h
    rw [← h.1] at hm
    have hres := readAsSetsLoop_reserved hloop nm l hm n hn
    rw [(isReserved_iff n).mpr hbad] at hres
    cases hres
  · intro payload l h
    exact pushAutnums_spec h

/-- Witness for C8: resolving the single set name `"AS-X"` against a reply
whose payload is `"AS1 AS65000 AS4294967295"` retains `[1, 4294967295]`
(65000 is reserved), and indeed neither retained number is reserved. -/
theorem c8_witness :
    resolveAsSets [[65, 83, 45, 88]]
        ⟨[], [], [.a [65, 83, 49, 32, 65, 83, 54, 53, 48, 48, 48, 32,
          65, 83, 52, 50, 57, 52, 57, 54, 55, 50, 57, 53], .c]⟩ =
      .ok ([([65, 83, 45, 88], [1, 4294967295])],
        ⟨[setQueryLine [65, 83, 45, 88]], [], []⟩) ∧
    (∀ n ∈ [1, 4294967295],
       ¬(n = 0 ∨ n = 23456 ∨ (64496 ≤ n ∧ n ≤ 65535) ∨
         (4200000000 ≤ n ∧ n ≤ 4294967294))) :=
  ⟨by decide,
   c8_as_filtering.1 [[65, 83, 45, 88]]
     ⟨[], [], [.a [65, 83, 49, 32, 65, 83, 54, 53, 48, 48, 48, 32,
       65, 83, 52, 50, 57, 52, 57, 54, 55, 50, 57, 53], .c]⟩
     [([65, 83, 45, 88], [1, 4294967295])]
     ⟨[setQueryLine [65, 83, 45, 88]], [], []⟩
     (by decide) [65, 83, 45, 88] [1, 4294967295] (by decide)⟩

/-- The write loop of `resolve_autnums` appends `!gas<n>`,`!6as<n>` pairs
to the stream buffer in ASN order. -/
theorem foldl_autnum_writes (asns : List Nat) (st : ConnState) :
    asns.foldl (fun acc n => writeLine (as6Line n) (writeLine (gasLine n) acc)) st =
      { st with buffered := st.buffered ++ autnumQueries asns } := by
  induction asns generalizing st with
  | nil => simp [autnumQueries]
  | cons n ns ih =>
    rw [List.foldl_cons, ih]
    simp [writeLine, autnumQueries]

/-- The read loop of `resolve_autnums` consumes exactly two logical replies
per ASN, pairing the IPv4 reply then the IPv6 reply with the ASN's entry
by position. -/
theorem readAutnumsLoop_spec : ∀ {asns : List Nat} {fs : List Frame}
    {m : List (Nat × List Prefix)} {fs2 : List Frame},
    readAutnumsLoop asns fs = .ok (m, fs2) →
    m.length = asns.length ∧
    ∃ reps, takeReplies (2 * asns.length) fs = .ok (reps, fs2) ∧
      ∀ i, i < asns.length →
        ∃ l4 l6, parsePrefixList 4 (reps.getD (2 * i) none) = .ok l4 ∧
          parsePrefixList 6 (reps.getD (2 * i + 1) none) = .ok l6 ∧
          m.getD i (0, []) = (asns.getD i 0, l4 ++ l6) := by
  intro asns
  induction asns with
  | nil =>
    intro fs m fs2 h
    rw [readAutnumsLoop] at h
    simp only [Res.ok.injEq, Prod.mk.injEq] at h
    obtain ⟨h1, h2⟩ := h
    subst h1
    subst h2
    exact ⟨rfl, [], by simp [takeReplies], by simp⟩
  | cons n ns ih =>
    intro fs m fs2 h
    rw [readAutnumsLoop] at h
    rw [Res.bind_eq_ok] at h
    obtain ⟨⟨r4, fs1⟩, hr4, h⟩ := h
    rw [Res.bind_eq_ok] at h
    obtain ⟨l4, hl4, h⟩ := h
    rw [Res.bind_eq_ok] at h
    obtain ⟨⟨r6, fs5⟩, hr6, h⟩ := h
    rw [Res.bind_eq_ok] at h
    obtain ⟨l6, hl6, h⟩ := h
    rw [Res.bind_eq_ok] at h
    obtain ⟨⟨rest, fs6⟩, hrest, h⟩ := h
    simp only [Res.pure_eq_ok, Res.ok.injEq, Prod.mk.injEq] at h
    obtain ⟨hm, hfs⟩ := h
    rw [← hm, ← hfs]
    obtain ⟨hlen, reps', htake, hidx⟩ := ih hrest
    refine ⟨by simp [hlen], r4 :: r6 :: reps', ?_, ?_⟩
    · have h2 : 2 * (n :: ns).length = 2 * ns.length + 1 + 1 := by
        simp [List.length_cons]; ring
      rw [h2, takeReplies]
      rw [Res.bind_eq_ok]
      refine ⟨(r4, fs1), hr4, ?_⟩
      rw [Res.bind_eq_ok]
      refine ⟨(r6 :: reps', fs6), ?_, by simp⟩
      rw [takeReplies, Res.bind_eq_ok]
      exact ⟨(r6, fs5), hr6, by rw [Res.bind_eq_ok]; exact ⟨(reps', fs6), htake, by simp⟩⟩
    · intro i hi
      match i with
      | 0 => exact ⟨l4, l6, by simpa using hl4, by simpa using hl6, by simp⟩
      | j + 1 =>
        have hj : j < ns.length := by simpa using hi
        obtain ⟨p4, p6, hp4, hp6, hpm⟩ := hidx j hj
        refine ⟨p4, p6, ?_, ?_, ?_⟩
        · have : 2 * (j + 1) = 2 * j + 1 + 1 := by ring
          rw [this]
          simpa using hp4
        · have : 2 * (j + 1) + 1 = 2 * j + 1 + 1 + 1 := by ring
          rw [this]
          simpa using hp6
        · simpa using hpm

/-- Claim C9: a successful `resolve_autnums` call (1) flushes, before any
read, exactly the `!gas<n>` / `!6as<n>` pair per ASN in write order —
the final wire trace extends the old one by those lines and the write
buffer is empty; (2) returns one entry per ASN; and (3) consumes exactly
`2·N` logical replies from the frame stream, pairing reply `2i` (IPv4)
then reply `2i+1` (IPv6) with the `i`-th ASN's entry. -/
theorem c9_pipelining (asns : List Nat) (st : ConnState)
    (m : List (Nat × List Prefix)) (st2 : ConnState)
    (h : resolveAutnums asns st = .ok (m, st2)) :
    st2.sent = st.sent ++ st.buffered ++ autnumQueries asns ∧
    st2.buffered = [] ∧
    m.length = asns.length ∧
    ∃ reps, takeReplies (2 * asns.length) st.frames = .ok (reps, st2.frames) ∧
      ∀ i, i < asns.length →
        ∃ l4 l6, parsePrefixList 4 (reps.getD (2 * i) none) = .ok l4 ∧
          parsePrefixList 6 (reps.getD (2 * i + 1) none) = .ok l6 ∧
          m.getD i (0, []) = (asns.getD i 0, l4 ++ l6) := by
  simp only [resolveAutnums, foldl_autnum_writes, Res.bind_eq_bind] at h
  rw [Res.bind_eq_ok] at h
  obtain ⟨⟨m2, fs⟩, hloop, h⟩ := h
  simp only [Res.ok.injEq, Prod.mk.injEq] at h
  obtain ⟨h1, h2⟩ := h
  subst h1
  rw [← h2]
  obtain ⟨hlen, reps, htake, hidx⟩ := readAutnumsLoop_spec hloop
  simp only [flushSt] at htake ⊢
  exact ⟨by simp, by simp, hlen, reps, htake, hidx⟩

/-- Witness for C9 at a concrete input: one ASN (1), an IPv4 reply
`"10.0.0.0/8"` and a `D` (empty) IPv6 reply. -/
theorem c9_witness :
    ([(1, [(IpAddr.v4 167772160, 8)])] : List (Nat × List Prefix)).length = [1].length ∧
    (⟨[gasLine 1, as6Line 1], [], []⟩ : ConnState).sent =
      ([] : List RStr) ++ [] ++ autnumQueries [1] :=
  have h : resolveAutnums [1]
      ⟨[], [], [.a [49, 48, 46, 48, 46, 48, 46, 48, 47, 56], .c, .d]⟩ =
      .ok ([(1, [(IpAddr.v4 167772160, 8)])], ⟨[gasLine 1, as6Line 1], [], []⟩) := by decide
  ⟨(c9_pipelining [1] ⟨[], [], [.a [49, 48, 46, 48, 46, 48, 46, 48, 47, 56], .c, .d]⟩
      [(1, [(IpAddr.v4 167772160, 8)])] ⟨[gasLine 1, as6Line 1], [], []⟩ h).2.2.1,
   (c9_pipelining [1] ⟨[], [], [.a [49, 48, 46, 48, 46, 48, 46, 48, 47, 56], .c, .d]⟩
      [(1, [(IpAddr.v4 167772160, 8)])] ⟨[gasLine 1, as6Line 1], [], []⟩ h).1⟩

end Fup

